import Mathlib

/-!
Verification of the Corrade configuration engine and plugin manager
specification against a shallow embedding.

The configuration engine (parser, serializer, mutators, typed value
conversion) and the plugin manager load and unload algorithms are modelled
from the specification, since only their tests and declarations are part of
the source tree. Files are modelled as lists of characters, groups as a
tree, and the parser as a line-by-line fold, following the grammar in the
specification.
-/

namespace Corrade

/-! Character and line helpers. -/

/-- A line of a configuration file, without its terminator. -/
abbrev Line := List Char

/-- A group or key name. -/
abbrev Name := List Char

/-- Whitespace inside a line: space or horizontal tab. -/
def isWs (c : Char) : Bool := c = ' ' || c = '\t'

/-- Drop leading whitespace. -/
def trimLeft (l : Line) : Line := l.dropWhile isWs

/-- Drop trailing whitespace. -/
def dropTrailingWs (l : Line) : Line := (l.reverse.dropWhile isWs).reverse

/-- Drop surrounding whitespace. -/
def trim (l : Line) : Line := dropTrailingWs (trimLeft l)

/-- Split a path on the separator character, keeping empty components. -/
def splitSlash : List Char → List (List Char)
  | [] => [[]]
  | c :: rest =>
    if c = '/' then [] :: splitSlash rest
    else
      match splitSlash rest with
      | [] => [[c]]
      | p :: ps => (c :: p) :: ps

/-- Join path components with the separator character. -/
def joinSlash : List (List Char) → List Char
  | [] => []
  | [n] => n
  | n :: ns => n ++ '/' :: joinSlash ns

/-- Split a line at the first equals sign, if any. -/
def splitFirstEq : List Char → Option (List Char × List Char)
  | [] => none
  | c :: rest =>
    if c = '=' then some ([], rest)
    else (splitFirstEq rest).map (fun p => (c :: p.1, p.2))

/-! The item model: a key-value pair stores the whitespace around the
equals sign and the value in its already-serialized text form. Comment and
blank lines are stored verbatim. -/

/-- Data of a key-value item: key, whitespace before and after the equals
sign, and the value as already-serialized text. -/
structure KVData where
  key : Name
  ws1 : List Char
  ws2 : List Char
  value : List Char
deriving DecidableEq, Repr

/-- An item of a group: a comment line, a blank line, or a key-value pair. -/
inductive ConfItem where
  | comment (text : Line)
  | blank (text : Line)
  | kv (k : KVData)
deriving DecidableEq, Repr

/-- Classification of one input line. -/
inductive LineKind where
  | blankL
  | commentL
  | headerL (names : List Name)
  | kvL (k : KVData)
  | badL
deriving DecidableEq, Repr

/-- Classify a line following the grammar: blank if empty after trim,
comment if the first non-whitespace character is a hash or semicolon,
group header if bracketed with a slash-separated path of non-empty names,
otherwise a key-value pair with a non-empty key that contains no
whitespace and no slash; anything else is unparseable. Unquoted values are
stored with surrounding whitespace trimmed, the whitespace around the
equals sign is preserved. -/
def classify (line : Line) : LineKind :=
  let t := trim line
  if t = [] then .blankL
  else if t.head? = some '#' ∨ t.head? = some ';' then .commentL
  else if t.head? = some '[' then
    if t.getLast? = some ']' then
      let parts := splitSlash ((t.drop 1).dropLast)
      if parts.all (fun p => !p.isEmpty) then .headerL parts else .badL
    else .badL
  else
    match splitFirstEq line with
    | none => .badL
    | some (lhs, rhs) =>
      let key := dropTrailingWs lhs
      if key ≠ [] ∧ key.all (fun c => !isWs c && c ≠ '/') then
        let ws1 := lhs.drop key.length
        let ws2 := rhs.takeWhile isWs
        let v := dropTrailingWs (rhs.drop ws2.length)
        if v.head? = some '"' ∧ (v.getLast? ≠ some '"' ∨ v.length < 2) then .badL
        else .kvL ⟨key, ws1, ws2, v⟩
      else .badL

/-- Serialize one item back to its line. -/
def serializeItem : ConfItem → Line
  | .comment t => t
  | .blank t => t
  | .kv k => k.key ++ k.ws1 ++ '=' :: (k.ws2 ++ k.value)

/-- The group header line for a full path. -/
def headerLine (names : List Name) : Line := '[' :: (joinSlash names ++ [']'])

/-- The line kind an item should classify back to. -/
def itemKind : ConfItem → LineKind
  | .comment _ => .commentL
  | .blank _ => .blankL
  | .kv k => .kvL k

/-- An item is canonical when its serialized line classifies back to it. -/
def wfItem (it : ConfItem) : Bool := classify (serializeItem it) == itemKind it

/-! The configuration tree: a group is a name, an ordered list of items and
an ordered list of child groups. The root group has the empty name. -/

/-- A configuration group. -/
inductive ConfGroup where
  | mk (name : Name) (items : List ConfItem) (children : List ConfGroup)

/-- Name of a group. -/
def ConfGroup.name : ConfGroup → Name
  | .mk n _ _ => n

/-- Items of a group. -/
def ConfGroup.items : ConfGroup → List ConfItem
  | .mk _ its _ => its

/-- Child groups of a group. -/
def ConfGroup.children : ConfGroup → List ConfGroup
  | .mk _ _ cs => cs

/-- An empty group with a given name. -/
def emptyGroup (n : Name) : ConfGroup := .mk n [] []

/-- Append a child group. -/
def appendChild (g : ConfGroup) (c : ConfGroup) : ConfGroup :=
  .mk g.name g.items (g.children ++ [c])

/-- Append several child groups. -/
def appendChildren (g : ConfGroup) (cs : List ConfGroup) : ConfGroup :=
  .mk g.name g.items (g.children ++ cs)

/-- Append one item. -/
def appendItem (g : ConfGroup) (it : ConfItem) : ConfGroup :=
  .mk g.name (g.items ++ [it]) g.children

/-- Append several items. -/
def appendItems (g : ConfGroup) (its : List ConfItem) : ConfGroup :=
  .mk g.name (g.items ++ its) g.children

/-- Modify the element of a list at an index, identity when out of range. -/
def listModify (l : List α) (i : Nat) (f : α → α) : List α :=
  match l, i with
  | [], _ => []
  | x :: xs, 0 => f x :: xs
  | x :: xs, i + 1 => x :: listModify xs i f

/-- Positions in the tree are lists of child indices; the empty position is
the root. Group lookup by position. -/
def getAt : ConfGroup → List Nat → Option ConfGroup
  | g, [] => some g
  | g, i :: p =>
    match g.children.get? i with
    | some c => getAt c p
    | none => none

/-- Modify the group at a position, identity when the position is invalid. -/
def modifyAt : ConfGroup → List Nat → (ConfGroup → ConfGroup) → ConfGroup
  | g, [], f => f g
  | g, i :: p, f => .mk g.name g.items (listModify g.children i (fun c => modifyAt c p f))

/-- Index of the last child with a given name, if any. -/
def lastIdxOf (n : Name) : List ConfGroup → Option Nat
  | [] => none
  | c :: cs =>
    match lastIdxOf n cs with
    | some i => some (i + 1)
    | none => if c.name = n then some 0 else none

/-- Navigation by names, resolving each component to the last child with
that name. -/
def navL : ConfGroup → List Name → Option (List Nat)
  | _, [] => some []
  | g, n :: ns =>
    match lastIdxOf n g.children with
    | none => none
    | some i =>
      match g.children.get? i with
      | none => none
      | some c => (navL c ns).map (fun p => i :: p)

/-- Drop the group at a position from its parent; the root is never
dropped. -/
def dropGroupAt : ConfGroup → List Nat → ConfGroup
  | g, [] => g
  | g, [i] => .mk g.name g.items (g.children.take i ++ g.children.drop (i + 1))
  | g, i :: p => .mk g.name g.items (listModify g.children i (fun c => dropGroupAt c p))

/-- Enter a group path from a group, creating groups on demand: intermediate
components resolve to the most recent child of that name or create one; the
final component merges into an existing child only under unique groups,
otherwise it creates a fresh sibling. Returns the updated group and the
relative position entered. -/
def enterPath (uniqueGroups : Bool) : ConfGroup → List Name → ConfGroup × List Nat
  | g, [] => (g, [])
  | g, [n] =>
    match (if uniqueGroups then lastIdxOf n g.children else none) with
    | some i => (g, [i])
    | none => (appendChild g (emptyGroup n), [g.children.length])
  | g, n :: ns =>
    match lastIdxOf n g.children with
    | some i =>
      let r := enterPath uniqueGroups (g.children.getD i (emptyGroup [])) ns
      (.mk g.name g.items (listModify g.children i (fun _ => r.1)), i :: r.2)
    | none =>
      let r := enterPath uniqueGroups (emptyGroup n) ns
      (appendChild g r.1, g.children.length :: r.2)

/-! Serialization of the tree to lines: the save contract writes each group
as a header line with its full path, followed by its items in order, then
its subgroups depth first. The root emits no header. -/

mutual

/-- Lines of one group under a path prefix: header, items, then children. -/
def serializeGroupLines (pref : List Name) : ConfGroup → List Line
  | .mk n its cs =>
    headerLine (pref ++ [n]) :: (its.map serializeItem ++ serializeForestLines (pref ++ [n]) cs)

/-- Lines of a forest of sibling groups under a path prefix. -/
def serializeForestLines (pref : List Name) : List ConfGroup → List Line
  | [] => []
  | c :: cs => serializeGroupLines pref c ++ serializeForestLines pref cs

end

/-- Lines of a whole configuration tree: root items then the subgroup
forest. The root name is ignored. -/
def serializeConfLines (g : ConfGroup) : List Line :=
  g.items.map serializeItem ++ serializeForestLines [] g.children

/-- A valid group or key name: non-empty, no separator, no terminator. -/
def validName (n : Name) : Bool :=
  !n.isEmpty && n.all (fun c => c ≠ '/' && c ≠ '\n' && c ≠ '\r')

/-- A canonical line: no terminator characters. -/
def cleanLine (l : Line) : Bool := l.all (fun c => c ≠ '\n' && c ≠ '\r')

/-- Keys of the key-value items of an item list. -/
def kvKeys (its : List ConfItem) : List Name :=
  its.filterMap (fun it => match it with | .kv k => some k.key | _ => none)

/-- No duplicates, by boolean recursion. -/
def namesNodup : List Name → Bool
  | [] => true
  | n :: ns => !ns.contains n && namesNodup ns

mutual

/-- Canonical well-formedness of a group for the round-trip statement: a
valid name, canonical items whose lines classify back to themselves, keys
unique when the unique-keys flag demands it, child names unique when the
unique-groups flag demands it, and well-formed children. -/
def wfGroupB (uniqueGroups uniqueKeys : Bool) : ConfGroup → Bool
  | .mk n its cs =>
    validName n && its.all (fun it => wfItem it && cleanLine (serializeItem it)) &&
    (!uniqueKeys || namesNodup (kvKeys its)) &&
    (!uniqueGroups || namesNodup (cs.map ConfGroup.name)) &&
    wfForestB uniqueGroups uniqueKeys cs

/-- Canonical well-formedness of a forest. -/
def wfForestB (uniqueGroups uniqueKeys : Bool) : List ConfGroup → Bool
  | [] => true
  | c :: cs => wfGroupB uniqueGroups uniqueKeys c && wfForestB uniqueGroups uniqueKeys cs

end

/-- Well-formedness of a root group: empty name, canonical items, key and
child-name uniqueness as the flags demand, well-formed children. -/
def wfRootB (uniqueGroups uniqueKeys : Bool) (g : ConfGroup) : Bool :=
  g.name.isEmpty && g.items.all (fun it => wfItem it && cleanLine (serializeItem it)) &&
  (!uniqueKeys || namesNodup (kvKeys g.items)) &&
  (!uniqueGroups || namesNodup (g.children.map ConfGroup.name)) &&
  wfForestB uniqueGroups uniqueKeys g.children

/-! The parser: a fold over classified lines, keeping the tree built so
far, the position of the current group and a validity flag. -/

/-- Construction flags of a configuration. -/
structure Flags where
  readOnly : Bool
  truncate : Bool
  uniqueGroups : Bool
  uniqueKeys : Bool
  skipComments : Bool
  forceUnixEol : Bool
  forceWindowsEol : Bool
deriving DecidableEq, Repr

/-- The all-clear flag set. -/
def Flags.default : Flags := ⟨false, false, false, false, false, false, false⟩

/-- Parser state: tree so far, position of the current group, validity. -/
structure PState where
  root : ConfGroup
  pos : List Nat
  valid : Bool

/-- Does any key-value item of the group carry the given key. -/
def keyExistsG (g : ConfGroup) (key : Name) : Bool :=
  (kvKeys g.items).contains key

/-- Replace the value of the first key-value item with the given key. -/
def replaceFirstKV (key : Name) (k : KVData) : List ConfItem → List ConfItem
  | [] => []
  | .kv k0 :: rest =>
    if k0.key = key then .kv k :: rest else .kv k0 :: replaceFirstKV key k rest
  | it :: rest => it :: replaceFirstKV key k rest

/-- One parse step: blanks are kept, comments are kept unless skipped,
headers enter a possibly new group, key-value lines append to the current
group or under unique keys replace a previous occurrence, and an
unparseable line drops the whole enclosing group and marks the
configuration invalid. -/
def stepLine (flags : Flags) (st : PState) (line : Line) : PState :=
  match classify line with
  | .blankL => { st with root := modifyAt st.root st.pos (fun g => appendItem g (.blank line)) }
  | .commentL =>
    if flags.skipComments then st
    else { st with root := modifyAt st.root st.pos (fun g => appendItem g (.comment line)) }
  | .headerL names =>
    let r := enterPath flags.uniqueGroups st.root names
    { root := r.1, pos := r.2, valid := st.valid }
  | .kvL k =>
    let cur := (getAt st.root st.pos).getD (emptyGroup [])
    if flags.uniqueKeys && keyExistsG cur k.key then
      let f := fun (g : ConfGroup) => ConfGroup.mk g.name (replaceFirstKV k.key k g.items) g.children
      { st with root := modifyAt st.root st.pos f }
    else
      { st with root := modifyAt st.root st.pos (fun g => appendItem g (.kv k)) }
  | .badL =>
    { root := dropGroupAt st.root st.pos, pos := st.pos.dropLast, valid := false }

/-- Fold the parse step over a list of lines. -/
def processLines (flags : Flags) (st : PState) (lines : List Line) : PState :=
  lines.foldl (stepLine flags) st

/-! End-of-line handling: lines are split at every terminator, a carriage
return before the newline being consumed with it; the detected style is
that of the first terminator; a missing final terminator is remembered. -/

/-- Split at every newline; the result is never empty and the last piece is
empty exactly when the text ends with a newline. -/
def splitLinesCore : List Char → List (List Char)
  | [] => [[]]
  | c :: rest =>
    if c = '\n' then [] :: splitLinesCore rest
    else
      match splitLinesCore rest with
      | [] => [[c]]
      | p :: ps => (c :: p) :: ps

/-- Remove one trailing carriage return, if present. -/
def stripCR (l : List Char) : List Char :=
  if l.getLast? = some '\r' then l.dropLast else l

/-- Split a file into lines plus a flag telling whether the final line had
a terminator. -/
def splitLines (s : List Char) : List Line × Bool :=
  let ps := (splitLinesCore s).map stripCR
  match ps.getLast? with
  | some [] => (ps.dropLast, true)
  | _ => (ps, false)

/-- Detected end-of-line style: true when the first terminator is a
carriage return followed by a newline. -/
def detectEolW : List Char → Bool
  | [] => false
  | c :: rest =>
    if c = '\n' then false
    else if c = '\r' && rest.head? = some '\n' then true
    else detectEolW rest

/-- Terminator characters of a style. -/
def eolChars (windows : Bool) : List Char := if windows then ['\r', '\n'] else ['\n']

/-- Join lines with a terminator between every pair and a final terminator
exactly when requested; the empty line list renders as the empty file. -/
def renderLines (eolW : Bool) (fin : Bool) : List Line → List Char
  | [] => []
  | [l] => l ++ (if fin then eolChars eolW else [])
  | l :: ls => l ++ eolChars eolW ++ renderLines eolW fin ls

/-! The configuration object. Modelled from the spec: the Configuration
class itself is not part of the source tree, only its test suite is; the
model follows the data model, grammar, save contract and failure semantics
sections of the specification. -/

/-- A configuration: flags, whether it came from an in-memory stream,
validity, detected end-of-line style, whether the file ended with a
terminator, the root group, and the two automatic-creation toggles. -/
structure Configuration where
  flags : Flags
  streamBased : Bool
  valid : Bool
  eolWindows : Bool
  finalEol : Bool
  root : ConfGroup
  autoGroups : Bool
  autoKeys : Bool

/-- Parse a character stream into a configuration. With the truncate flag
the content is discarded and the configuration starts empty. -/
def parseChars (flags : Flags) (stream : Bool) (s : List Char) : Configuration :=
  if flags.truncate then
    ⟨flags, stream, true, false, true, emptyGroup [], false, false⟩
  else
    ⟨flags, stream,
      (processLines flags ⟨emptyGroup [], [], true⟩ (splitLines s).1).valid,
      detectEolW s, (splitLines s).2,
      (processLines flags ⟨emptyGroup [], [], true⟩ (splitLines s).1).root,
      false, false⟩

/-- Open a configuration on a file: the read result is the file content, or
none when the file is unreadable. An unreadable file yields the invalid
state. -/
def Configuration.fromFile (flags : Flags) (content : Option (List Char)) : Configuration :=
  match content with
  | some s => parseChars flags false s
  | none => ⟨flags, false, false, false, true, emptyGroup [], false, false⟩

/-- Construct a configuration from an in-memory text source; such a
configuration is permanently read-only. -/
def Configuration.fromStream (s : List Char) : Configuration :=
  parseChars Flags.default true s

/-- Validity query. -/
def Configuration.isValid (c : Configuration) : Bool := c.valid

/-- A configuration rejects mutation when it is read-only by flag or came
from an in-memory stream. -/
def Configuration.effectiveReadOnly (c : Configuration) : Bool :=
  c.flags.readOnly || c.streamBased

/-- The end-of-line style used on save: a forcing flag wins, otherwise the
detected style. -/
def Configuration.saveEolW (c : Configuration) : Bool :=
  if c.flags.forceWindowsEol then true
  else if c.flags.forceUnixEol then false
  else c.eolWindows

/-- Save: fails on invalid or read-only configurations, otherwise renders
the tree with the chosen end-of-line style. -/
def Configuration.save (c : Configuration) : Option (List Char) :=
  if c.valid && !c.effectiveReadOnly then
    some (renderLines c.saveEolW c.finalEol (serializeConfLines c.root))
  else none

/-- Save returning a string. -/
def Configuration.saveS (c : Configuration) : Option String :=
  (c.save).map (fun l => ⟨l⟩)

/-- Parse from a string literal. -/
def parseS (flags : Flags) (s : String) : Configuration := parseChars flags false s.data

/-! Queries on groups and values. -/

/-- Number of children of a group carrying a name. -/
def groupCountG (g : ConfGroup) (n : Name) : Nat :=
  (g.children.filter (fun c => c.name = n)).length

/-- The index-th child of a group carrying a name. -/
def findGroupG (g : ConfGroup) (n : Name) (idx : Nat) : Option ConfGroup :=
  (g.children.filter (fun c => c.name = n)).get? idx

/-- Values stored under a key, in order. -/
def kvValues (g : ConfGroup) (key : Name) : List (List Char) :=
  g.items.filterMap (fun it => match it with
    | .kv k => if k.key = key then some k.value else none
    | _ => none)

/-- Number of key-value items with a key. -/
def keyCountG (g : ConfGroup) (key : Name) : Nat := (kvValues g key).length

/-- The stored text of the index-th value of a key. -/
def findValueG (g : ConfGroup) (key : Name) (idx : Nat) : Option (List Char) :=
  (kvValues g key).get? idx

/-- Resolve a path of name and index pairs from a group. -/
def resolveG : ConfGroup → List (Name × Nat) → Option ConfGroup
  | g, [] => some g
  | g, (n, i) :: p =>
    match findGroupG g n i with
    | some c => resolveG c p
    | none => none

/-- Root-level group count of a configuration. -/
def Configuration.groupCount (c : Configuration) (n : Name) : Nat :=
  groupCountG c.root n

/-- Stored value text at a path, key and index. -/
def Configuration.valueAt (c : Configuration) (path : List (Name × Nat)) (key : Name)
    (idx : Nat) : Option (List Char) :=
  (resolveG c.root path).bind (fun g => findValueG g key idx)

/-- All stored value texts at a path and key. -/
def Configuration.valuesAt (c : Configuration) (path : List (Name × Nat)) (key : Name) :
    List (List Char) :=
  match resolveG c.root path with
  | some g => kvValues g key
  | none => []

/-- Key count at a path. -/
def Configuration.keyCountAt (c : Configuration) (path : List (Name × Nat)) (key : Name) : Nat :=
  match resolveG c.root path with
  | some g => keyCountG g key
  | none => 0

/-! Mutators. Every mutator returns a success indicator; the failure causes
are exactly: configuration invalid, configuration read-only, a uniqueness
constraint violated, a separator in a proposed name, or an index out of
range. On failure the group is returned unchanged. -/

/-- The mutation context of a configuration: validity, effective
read-only state and the two uniqueness flags. -/
structure Ctx where
  valid : Bool
  readOnly : Bool
  uniqueGroups : Bool
  uniqueKeys : Bool
deriving DecidableEq, Repr

/-- The mutation context of a configuration. -/
def Configuration.ctx (c : Configuration) : Ctx :=
  ⟨c.valid, c.effectiveReadOnly, c.flags.uniqueGroups, c.flags.uniqueKeys⟩

/-- The group may be written at all. -/
def Ctx.canWrite (c : Ctx) : Bool := c.valid && !c.readOnly

/-- Does a name contain the separator. -/
def hasSlash (n : Name) : Bool := n.contains '/'

/-- Does the group have a child with the given name. -/
def groupExistsG (g : ConfGroup) (n : Name) : Bool := decide (0 < groupCountG g n)

/-- Add an empty child group. -/
def addGroupG (ctx : Ctx) (g : ConfGroup) (n : Name) : Bool × ConfGroup :=
  if ctx.canWrite && !hasSlash n && !(ctx.uniqueGroups && groupExistsG g n) then
    (true, appendChild g (emptyGroup n))
  else (false, g)

/-- Remove the index-th child group of a name. -/
def removeGroupG (ctx : Ctx) (g : ConfGroup) (n : Name) (idx : Nat) : Bool × ConfGroup :=
  if ctx.canWrite && decide (idx < groupCountG g n) then
    (true, .mk g.name g.items (removeNthNamed g.children n idx))
  else (false, g)
where
  /-- Remove the index-th group of a name from a sibling list. -/
  removeNthNamed : List ConfGroup → Name → Nat → List ConfGroup
    | [], _, _ => []
    | c :: cs, n, i =>
      if c.name = n then
        match i with
        | 0 => cs
        | i + 1 => c :: removeNthNamed cs n i
      else c :: removeNthNamed cs n i

/-- Remove every child group of a name. -/
def removeAllGroupsG (ctx : Ctx) (g : ConfGroup) (n : Name) : Bool × ConfGroup :=
  if ctx.canWrite then
    (true, .mk g.name g.items (g.children.filter (fun c => c.name ≠ n)))
  else (false, g)

/-- Clear a group: drop all items and children. -/
def clearG (ctx : Ctx) (g : ConfGroup) : Bool × ConfGroup :=
  if ctx.canWrite then (true, .mk g.name [] []) else (false, g)

/-- Add a key-value item with already-serialized value text. -/
def addValueG (ctx : Ctx) (g : ConfGroup) (key : Name) (v : List Char) : Bool × ConfGroup :=
  if ctx.canWrite && !hasSlash key && !(ctx.uniqueKeys && keyExistsG g key) then
    (true, appendItem g (.kv ⟨key, [], [], v⟩))
  else (false, g)

/-- Replace the index-th value of a key, appending when the index equals
the key count. -/
def setValueG (ctx : Ctx) (g : ConfGroup) (key : Name) (v : List Char) (idx : Nat) :
    Bool × ConfGroup :=
  if ctx.canWrite && !hasSlash key && decide (idx ≤ keyCountG g key) then
    if idx = keyCountG g key then
      (true, appendItem g (.kv ⟨key, [], [], v⟩))
    else
      (true, .mk g.name (setNthKV g.items key idx v) g.children)
  else (false, g)
where
  /-- Replace the text of the index-th key-value item of a key. -/
  setNthKV : List ConfItem → Name → Nat → List Char → List ConfItem
    | [], _, _, _ => []
    | .kv k :: rest, key, i, v =>
      if k.key = key then
        match i with
        | 0 => .kv ⟨k.key, k.ws1, k.ws2, v⟩ :: rest
        | i + 1 => .kv k :: setNthKV rest key i v
      else .kv k :: setNthKV rest key i v
    | it :: rest, key, i, v => it :: setNthKV rest key i v

/-- Remove the index-th key-value item of a key. -/
def removeValueG (ctx : Ctx) (g : ConfGroup) (key : Name) (idx : Nat) : Bool × ConfGroup :=
  if ctx.canWrite && decide (idx < keyCountG g key) then
    (true, .mk g.name (removeNthKV g.items key idx) g.children)
  else (false, g)
where
  /-- Remove the index-th key-value item of a key from an item list. -/
  removeNthKV : List ConfItem → Name → Nat → List ConfItem
    | [], _, _ => []
    | .kv k :: rest, key, i =>
      if k.key = key then
        match i with
        | 0 => rest
        | i + 1 => .kv k :: removeNthKV rest key i
      else .kv k :: removeNthKV rest key i
    | it :: rest, key, i => it :: removeNthKV rest key i

/-- Remove every key-value item of a key. -/
def removeAllValuesG (ctx : Ctx) (g : ConfGroup) (key : Name) : Bool × ConfGroup :=
  if ctx.canWrite then
    (true, .mk g.name (g.items.filter (fun it => match it with
      | .kv k => k.key ≠ key
      | _ => true)) g.children)
  else (false, g)

/-- Apply a group mutator at a path of a configuration; an unresolvable
path fails and the configuration is unchanged on failure. -/
def applyAtPath (c : Configuration) (path : List (Name × Nat))
    (f : Ctx → ConfGroup → Bool × ConfGroup) : Bool × Configuration :=
  match navResolve c.root path with
  | none => (false, c)
  | some pos =>
    match getAt c.root pos with
    | none => (false, c)
    | some g =>
      let r := f c.ctx g
      if r.1 then (true, { c with root := setAtPos c.root pos r.2 }) else (false, c)
where
  /-- Positional resolution of a name and index path. -/
  navResolve : ConfGroup → List (Name × Nat) → Option (List Nat)
    | _, [] => some []
    | g, (n, i) :: p =>
      match idxOfNamed g.children n i 0 with
      | none => none
      | some j =>
        match g.children.get? j with
        | none => none
        | some cg => (navResolve cg p).map (fun q => j :: q)
  /-- Absolute index of the index-th child of a name. -/
  idxOfNamed : List ConfGroup → Name → Nat → Nat → Option Nat
    | [], _, _, _ => none
    | c :: cs, n, i, j =>
      if c.name = n then
        match i with
        | 0 => some j
        | i + 1 => idxOfNamed cs n i (j + 1)
      else idxOfNamed cs n i (j + 1)
  /-- Replace the group at a position. -/
  setAtPos (root : ConfGroup) (pos : List Nat) (g : ConfGroup) : ConfGroup :=
    modifyAt root pos (fun _ => g)

/-- Configuration-level mutators, acting at a path. -/
def Configuration.addGroupAt (c : Configuration) (path : List (Name × Nat)) (n : Name) :
    Bool × Configuration :=
  applyAtPath c path (fun ctx g => addGroupG ctx g n)

/-- Remove a group at a path. -/
def Configuration.removeGroupAt (c : Configuration) (path : List (Name × Nat)) (n : Name)
    (idx : Nat) : Bool × Configuration :=
  applyAtPath c path (fun ctx g => removeGroupG ctx g n idx)

/-- Remove all groups of a name at a path. -/
def Configuration.removeAllGroupsAt (c : Configuration) (path : List (Name × Nat)) (n : Name) :
    Bool × Configuration :=
  applyAtPath c path (fun ctx g => removeAllGroupsG ctx g n)

/-- Add a value at a path. -/
def Configuration.addValueAt (c : Configuration) (path : List (Name × Nat)) (key : Name)
    (v : List Char) : Bool × Configuration :=
  applyAtPath c path (fun ctx g => addValueG ctx g key v)

/-- Set a value at a path. -/
def Configuration.setValueAt (c : Configuration) (path : List (Name × Nat)) (key : Name)
    (v : List Char) (idx : Nat) : Bool × Configuration :=
  applyAtPath c path (fun ctx g => setValueG ctx g key v idx)

/-- Remove a value at a path. -/
def Configuration.removeValueAt (c : Configuration) (path : List (Name × Nat)) (key : Name)
    (idx : Nat) : Bool × Configuration :=
  applyAtPath c path (fun ctx g => removeValueG ctx g key idx)

/-- Remove all values of a key at a path. -/
def Configuration.removeAllValuesAt (c : Configuration) (path : List (Name × Nat)) (key : Name) :
    Bool × Configuration :=
  applyAtPath c path (fun ctx g => removeAllValuesG ctx g key)

/-- Clear the group at a path. -/
def Configuration.clearAt (c : Configuration) (path : List (Name × Nat)) :
    Bool × Configuration :=
  applyAtPath c path (fun ctx g => clearG ctx g)

/-! Typed value conversion. Booleans accept true, yes, on and 1 in any
letter case as true and everything else, in particular false, no, off, 0
and the empty text, as false; writes emit the lowercase words. Strings are
double-quoted when they begin or end with whitespace or contain a quote,
with interior quotes and backslashes escaped. -/

/-- Lowercase a stored text. -/
def lowerChars (l : List Char) : List Char := l.map Char.toLower

/-- Boolean read-side conversion of an already lowercased text. -/
def boolFromLower (l : List Char) : Bool :=
  l = "true".data || l = "yes".data || l = "on".data || l = "1".data

/-- Boolean read-side conversion of a stored text. -/
def boolFromChars (l : List Char) : Bool := boolFromLower (lowerChars l)

/-- Boolean write-side conversion. -/
def boolToChars (b : Bool) : List Char := if b then "true".data else "false".data

/-- Typed boolean read of the index-th value of a key. -/
def valueBoolG (g : ConfGroup) (key : Name) (idx : Nat) : Option Bool :=
  (findValueG g key idx).map boolFromChars

/-- Typed boolean write through a set-value mutation. -/
def setValueBoolG (ctx : Ctx) (g : ConfGroup) (key : Name) (b : Bool) (idx : Nat) :
    Bool × ConfGroup :=
  setValueG ctx g key (boolToChars b) idx

/-- Does a string value need quoting when serialized. -/
def needsQuote (s : List Char) : Bool :=
  (match s.head? with | some c => isWs c | none => false) ||
  (match s.getLast? with | some c => isWs c | none => false) ||
  s.contains '"'

/-- Escape interior quotes and backslashes. -/
def escapeChars : List Char → List Char
  | [] => []
  | c :: rest =>
    if c = '"' || c = '\\' then '\\' :: c :: escapeChars rest
    else c :: escapeChars rest

/-- Undo escaping. -/
def unescapeChars : List Char → List Char
  | [] => []
  | c :: rest =>
    if c = '\\' then
      match rest with
      | [] => [c]
      | d :: rest2 => d :: unescapeChars rest2
    else c :: unescapeChars rest

/-- Serialize a string value: quoted and escaped when needed. -/
def serializeStr (s : List Char) : List Char :=
  if needsQuote s then '"' :: (escapeChars s ++ ['"']) else s

/-- Deserialize a stored text into a string value. -/
def deserializeStr (v : List Char) : List Char :=
  if v.head? = some '"' && v.getLast? = some '"' && decide (2 ≤ v.length) then
    unescapeChars ((v.drop 1).dropLast)
  else v

/-! Automatic creation toggles. When automatic group creation is enabled a
group query for a missing group materializes it; when automatic key
creation is enabled a typed read of a missing key succeeds, stores the
serialized default and leaves the caller variable at the default. -/

/-- Toggle automatic group creation. -/
def Configuration.setAutomaticGroupCreation (c : Configuration) (b : Bool) : Configuration :=
  { c with autoGroups := b }

/-- Toggle automatic key creation. -/
def Configuration.setAutomaticKeyCreation (c : Configuration) (b : Bool) : Configuration :=
  { c with autoKeys := b }

/-- Root-level group query with automatic creation: an existing group is
returned as is; a missing one is created and returned when the toggle is
on and the configuration is writable. -/
def Configuration.groupAuto (c : Configuration) (n : Name) : Option ConfGroup × Configuration :=
  match findGroupG c.root n 0 with
  | some g => (some g, c)
  | none =>
    if c.autoGroups && c.ctx.canWrite then
      (some (emptyGroup n), { c with root := appendChild c.root (emptyGroup n) })
    else (none, c)

/-- Typed read with automatic key creation, parameterized by the
serializer pair of the type: a hit deserializes the stored text; a miss
with the toggle on succeeds, stores the serialized default and returns the
default; a miss with the toggle off fails. -/
def valueAutoT (toS : α → List Char) (fromS : List Char → α) (auto : Bool)
    (g : ConfGroup) (key : Name) (d : α) : Bool × α × ConfGroup :=
  match findValueG g key 0 with
  | some v => (true, fromS v, g)
  | none =>
    if auto then (true, d, appendItem g (.kv ⟨key, [], [], toS d⟩))
    else (false, d, g)

/-- String-typed read with automatic key creation. -/
def valueAutoStr (auto : Bool) (g : ConfGroup) (key : Name) (d : List Char) :
    Bool × List Char × ConfGroup :=
  valueAutoT serializeStr deserializeStr auto g key d

/-! The plugin manager. Modelled from the spec: only the class declaration
header is part of the source tree, so the load and unload algorithms
follow the load-state machine, load algorithm and unload algorithm
sections of the specification. The native module layer is an oracle
passed in as an environment. -/

/-- Load states of a plugin record. -/
inductive LoadState where
  | notFound
  | wrongPluginVersion
  | wrongInterfaceVersion
  | wrongMetadataFile
  | unresolvedDependency
  | loadFailed
  | loadOk
  | notLoaded
  | unloadFailed
  | isRequired
  | isStatic
  | isUsed
deriving DecidableEq, Repr

/-- A plugin record: load state, declared dependencies, the used-by set,
the number of live instances, and whether a module handle is held. -/
structure PluginRecord where
  loadState : LoadState
  deps : List String
  usedBy : List String
  instances : Nat
  hasModule : Bool
deriving DecidableEq, Repr

/-- The plugin manager: the record map as an association list, the
interface identifier and the compiled-in version. -/
structure PluginManager where
  records : List (String × PluginRecord)
  interface : String
  version : Int
deriving DecidableEq, Repr

/-- The native layer as an oracle: whether a binary exists and opens, and
the version and interface symbols it would expose. -/
structure PMEnv where
  binaryExists : String → Bool
  dlopenOk : String → Bool
  pluginVersion : String → Int
  pluginInterface : String → String
  dlcloseOk : String → Bool

/-- Look up a plugin record by name. -/
def findRecord (m : PluginManager) (name : String) : Option PluginRecord :=
  match m.records.find? (fun r => r.1 = name) with
  | some r => some r.2
  | none => none

/-- Replace a plugin record by name. -/
def setRecord (m : PluginManager) (name : String) (r : PluginRecord) : PluginManager :=
  { m with records := m.records.map (fun p => if p.1 = name then (p.1, r) else p) }

/-- Set only the load state of a record. -/
def setState (m : PluginManager) (name : String) (s : LoadState) : PluginManager :=
  match findRecord m name with
  | some r => setRecord m name { r with loadState := s }
  | none => m

/-- Add a user to the used-by set of each named dependency. -/
def addUsedByAll (m : PluginManager) (deps : List String) (user : String) : PluginManager :=
  deps.foldl (fun m d =>
    match findRecord m d with
    | some r => setRecord m d { r with usedBy := r.usedBy ++ [user] }
    | none => m) m

/-- Remove a user from the used-by set of each named dependency. -/
def removeUsedByAll (m : PluginManager) (deps : List String) (user : String) : PluginManager :=
  deps.foldl (fun m d =>
    match findRecord m d with
    | some r => setRecord m d { r with usedBy := r.usedBy.filter (fun u => u ≠ user) }
    | none => m) m

/-- Run a dependency loop: load every dependency with the given loader and
stop at the first one that ends in neither the loaded nor the static
state. -/
def loadDepsWith (f : PluginManager → String → LoadState × PluginManager) :
    PluginManager → List String → Bool × PluginManager
  | m, [] => (true, m)
  | m, d :: ds =>
    let r := f m d
    if r.1 = .loadOk || r.1 = .isStatic then loadDepsWith f r.2 ds else (false, r.2)

/-- The load algorithm: an already loaded or static record is returned as
is; invalid metadata or a missing binary fail without side effects; cycles
are cut by the in-progress set; dependencies are loaded recursively and a
failure leaves the record unresolved without rolling back ones that
succeeded; then the module is opened and its version and interface symbols
checked before the record advances to loaded and registers itself with
each dependency. The fuel bounds the recursion depth. -/
def loadGo (env : PMEnv) (fuel : Nat) (inprog : List String) (m : PluginManager)
    (name : String) : LoadState × PluginManager :=
  match findRecord m name with
  | none => (.notFound, m)
  | some r =>
    if r.loadState = .loadOk || r.loadState = .isStatic then (r.loadState, m)
    else if r.loadState = .wrongMetadataFile then (.wrongMetadataFile, m)
    else if inprog.contains name then (.unresolvedDependency, m)
    else if !env.binaryExists name then (.notFound, m)
    else
      match fuel with
      | 0 => (.unresolvedDependency, m)
      | fuel + 1 =>
        let dres := loadDepsWith (loadGo env fuel (name :: inprog)) m r.deps
        if !dres.1 then (.unresolvedDependency, setState dres.2 name .unresolvedDependency)
        else if !env.dlopenOk name then (.loadFailed, setState dres.2 name .loadFailed)
        else if env.pluginVersion name ≠ m.version then
          (.wrongPluginVersion, setState dres.2 name .wrongPluginVersion)
        else if env.pluginInterface name ≠ m.interface then
          (.wrongInterfaceVersion, setState dres.2 name .wrongInterfaceVersion)
        else
          (.loadOk, addUsedByAll
            (setRecord dres.2 name { r with loadState := .loadOk, hasModule := true })
            r.deps name)

/-- Load entry point with the recursion depth bounded by the record count. -/
def PluginManager.load (env : PMEnv) (m : PluginManager) (name : String) :
    LoadState × PluginManager :=
  loadGo env (m.records.length + 1) [] m name

/-- The unload algorithm: a static record is returned untouched; a record
that is not loaded reports its current state; live instances or a
non-empty used-by set block the unload; closing the module may fail;
otherwise the record returns to the not-loaded state and retires from each
dependency used-by set. -/
def PluginManager.unload (env : PMEnv) (m : PluginManager) (name : String) :
    LoadState × PluginManager :=
  match findRecord m name with
  | none => (.notFound, m)
  | some r =>
    if r.loadState = .isStatic then (.isStatic, m)
    else if r.loadState ≠ .loadOk then (r.loadState, m)
    else if r.instances ≠ 0 then (.isUsed, m)
    else if !r.usedBy.isEmpty then (.isRequired, m)
    else if !env.dlcloseOk name then (.unloadFailed, setState m name .unloadFailed)
    else
      (.notLoaded, removeUsedByAll
        (setRecord m name { r with loadState := .notLoaded, hasModule := false })
        r.deps name)

/-- Load state query: static plugins always report the static state. -/
def PluginManager.loadState (m : PluginManager) (name : String) : LoadState :=
  match findRecord m name with
  | some r => r.loadState
  | none => .notFound

/-- Run a sequence of load and unload calls against one plugin, collecting
the returned states. -/
def PluginManager.runSeq (env : PMEnv) (m : PluginManager) (name : String) :
    List Bool → List LoadState × PluginManager
  | [] => ([], m)
  | op :: ops =>
    let r := if op then m.load env name else m.unload env name
    let rest := PluginManager.runSeq env r.2 name ops
    (r.1 :: rest.1, rest.2)

/-! Infrastructure lemmas about list modification and tree positions. -/

@[simp] theorem ConfGroup.name_mk (n : Name) (its : List ConfItem) (cs : List ConfGroup) :
    (ConfGroup.mk n its cs).name = n := rfl

@[simp] theorem ConfGroup.items_mk (n : Name) (its : List ConfItem) (cs : List ConfGroup) :
    (ConfGroup.mk n its cs).items = its := rfl

@[simp] theorem ConfGroup.children_mk (n : Name) (its : List ConfItem) (cs : List ConfGroup) :
    (ConfGroup.mk n its cs).children = cs := rfl

theorem listModify_get?_self (l : List α) (i : Nat) (f : α → α) :
    (listModify l i f).get? i = (l.get? i).map f := by
  induction l generalizing i with
  | nil => simp [listModify]
  | cons x xs ih =>
    cases i with
    | zero => simp [listModify]
    | succ i => simpa [listModify] using ih i

theorem listModify_get?_ne (l : List α) (i j : Nat) (f : α → α) (h : i ≠ j) :
    (listModify l i f).get? j = l.get? j := by
  induction l generalizing i j with
  | nil => simp [listModify]
  | cons x xs ih =>
    cases i with
    | zero =>
      cases j with
      | zero => exact absurd rfl h
      | succ j => simp [listModify]
    | succ i =>
      cases j with
      | zero => simp [listModify]
      | succ j => simpa [listModify] using ih i j (by omega)

theorem listModify_length (l : List α) (i : Nat) (f : α → α) :
    (listModify l i f).length = l.length := by
  induction l generalizing i with
  | nil => simp [listModify]
  | cons x xs ih =>
    cases i with
    | zero => simp [listModify]
    | succ i => simpa [listModify] using ih i

theorem listModify_listModify (l : List α) (i : Nat) (f g : α → α) :
    listModify (listModify l i f) i g = listModify l i (fun a => g (f a)) := by
  induction l generalizing i with
  | nil => simp [listModify]
  | cons x xs ih =>
    cases i with
    | zero => simp [listModify]
    | succ i => simpa [listModify] using ih i

theorem listModify_congr_at (l : List α) (i : Nat) (f g : α → α)
    (h : ∀ a, l.get? i = some a → f a = g a) :
    listModify l i f = listModify l i g := by
  induction l generalizing i with
  | nil => simp [listModify]
  | cons x xs ih =>
    cases i with
    | zero => simp [listModify, h x (by simp)]
    | succ i =>
      simp only [listModify, List.cons.injEq, true_and]
      exact ih i (fun a ha => h a (by simpa using ha))

theorem listModify_map (l : List α) (i : Nat) (f : α → α) (nm : α → β)
    (h : ∀ a, nm (f a) = nm a) : (listModify l i f).map nm = l.map nm := by
  induction l generalizing i with
  | nil => simp [listModify]
  | cons x xs ih =>
    cases i with
    | zero => simp [listModify, h]
    | succ i => simp [listModify, ih i]

theorem listModify_append_length (l : List α) (a : α) (f : α → α) :
    listModify (l ++ [a]) l.length f = l ++ [f a] := by
  induction l with
  | nil => simp [listModify]
  | cons x xs ih => simpa [listModify] using ih

theorem get?_append_length (l : List α) (a : α) : (l ++ [a]).get? l.length = some a := by
  induction l with
  | nil => rfl
  | cons x xs ih => simp [ih]

theorem getAt_modifyAt_self (g : ConfGroup) (p : List Nat) (f : ConfGroup → ConfGroup) :
    getAt (modifyAt g p f) p = (getAt g p).map f := by
  induction p generalizing g with
  | nil => simp [getAt, modifyAt]
  | cons i p ih =>
    cases g with
    | mk n its cs =>
      simp only [modifyAt, getAt, ConfGroup.children, listModify_get?_self]
      cases h : cs.get? i with
      | none => simp
      | some c => simp [ih]

theorem modifyAt_modifyAt (g : ConfGroup) (p : List Nat) (f h : ConfGroup → ConfGroup) :
    modifyAt (modifyAt g p f) p h = modifyAt g p (fun x => h (f x)) := by
  induction p generalizing g with
  | nil => simp [modifyAt]
  | cons i p ih =>
    cases g with
    | mk n its cs =>
      simp only [modifyAt, ConfGroup.name, ConfGroup.items, ConfGroup.children,
        ConfGroup.mk.injEq, true_and, listModify_listModify]
      exact listModify_congr_at _ _ _ _ (fun a _ => ih a)

theorem modifyAt_append (g : ConfGroup) (p q : List Nat) (f : ConfGroup → ConfGroup) :
    modifyAt g (p ++ q) f = modifyAt g p (fun h => modifyAt h q f) := by
  induction p generalizing g with
  | nil => simp [modifyAt]
  | cons i p ih =>
    cases g with
    | mk n its cs =>
      simp only [List.cons_append, modifyAt, ConfGroup.mk.injEq, true_and]
      exact listModify_congr_at _ _ _ _ (fun a _ => ih a)

theorem getAt_append (g : ConfGroup) (p q : List Nat) :
    getAt g (p ++ q) = (getAt g p).bind (fun h => getAt h q) := by
  induction p generalizing g with
  | nil => simp [getAt]
  | cons i p ih =>
    cases g with
    | mk n its cs =>
      simp only [List.cons_append, getAt, ConfGroup.children]
      cases h : cs.get? i with
      | none => simp
      | some c => simp [ih]

theorem confGroup_eta (g : ConfGroup) : ConfGroup.mk g.name g.items g.children = g := by
  cases g
  rfl

theorem listModify_id (l : List α) (i : Nat) : listModify l i (fun a => a) = l := by
  induction l generalizing i with
  | nil => simp [listModify]
  | cons x xs ih =>
    cases i with
    | zero => simp [listModify]
    | succ i => simp [listModify, ih]

theorem modifyAt_id (g : ConfGroup) (p : List Nat) : modifyAt g p (fun x => x) = g := by
  induction p generalizing g with
  | nil => simp [modifyAt]
  | cons i p ih =>
    cases g with
    | mk n its cs =>
      simp only [modifyAt, ConfGroup.name_mk, ConfGroup.items_mk, ConfGroup.children_mk,
        ConfGroup.mk.injEq, true_and]
      have h1 : listModify cs i (fun c => modifyAt c p fun x => x) =
          listModify cs i (fun c => c) :=
        listModify_congr_at _ _ _ _ (fun a _ => ih a)
      rw [h1, listModify_id]

theorem modifyAt_congr_at (g : ConfGroup) (p : List Nat) (f f2 : ConfGroup → ConfGroup)
    (h0 : ConfGroup) (hget : getAt g p = some h0) (hf : f h0 = f2 h0) :
    modifyAt g p f = modifyAt g p f2 := by
  induction p generalizing g with
  | nil =>
    simp only [getAt, Option.some.injEq] at hget
    subst hget
    simpa [modifyAt] using hf
  | cons i p ih =>
    cases g with
    | mk n its cs =>
      simp only [getAt, ConfGroup.children_mk] at hget
      simp only [modifyAt, ConfGroup.name_mk, ConfGroup.items_mk, ConfGroup.children_mk,
        ConfGroup.mk.injEq, true_and]
      refine listModify_congr_at _ _ _ _ (fun a ha => ?_)
      rw [ha] at hget
      exact ih a hget

theorem modifyAt_congr (g : ConfGroup) (p : List Nat) (f f2 : ConfGroup → ConfGroup)
    (hf : ∀ h, f h = f2 h) : modifyAt g p f = modifyAt g p f2 := by
  induction p generalizing g with
  | nil => simpa [modifyAt] using hf g
  | cons i p ih =>
    cases g with
    | mk n its cs =>
      simp only [modifyAt, ConfGroup.mk.injEq, true_and]
      exact listModify_congr_at _ _ _ _ (fun a _ => ih a)

theorem modifyAt_name (g : ConfGroup) (p : List Nat) (f : ConfGroup → ConfGroup)
    (hf : ∀ h, (f h).name = h.name) : (modifyAt g p f).name = g.name := by
  cases p with
  | nil => exact hf g
  | cons i p =>
    cases g
    rfl

/-! Lemmas about navigation by names. -/

theorem lastIdxOf_congr (n : Name) (cs cs2 : List ConfGroup)
    (h : cs.map ConfGroup.name = cs2.map ConfGroup.name) :
    lastIdxOf n cs = lastIdxOf n cs2 := by
  induction cs generalizing cs2 with
  | nil =>
    cases cs2 with
    | nil => rfl
    | cons y ys => simp at h
  | cons x xs ih =>
    cases cs2 with
    | nil => simp at h
    | cons y ys =>
      simp only [List.map_cons, List.cons.injEq] at h
      simp only [lastIdxOf, ih ys h.2, h.1]

theorem lastIdxOf_get (n : Name) (cs : List ConfGroup) (i : Nat)
    (h : lastIdxOf n cs = some i) : ∃ c, cs.get? i = some c ∧ c.name = n := by
  induction cs generalizing i with
  | nil => simp [lastIdxOf] at h
  | cons x xs ih =>
    unfold lastIdxOf at h
    split at h
    · next j hj =>
      simp only [Option.some.injEq] at h
      subst h
      obtain ⟨c, hc, hn⟩ := ih j hj
      exact ⟨c, by simpa using hc, hn⟩
    · next hj =>
      split at h
      · next hxn =>
        simp only [Option.some.injEq] at h
        subst h
        exact ⟨x, by simp, hxn⟩
      · simp at h

theorem lastIdxOf_eq_none_of_not_mem (n : Name) (cs : List ConfGroup)
    (h : n ∉ cs.map ConfGroup.name) : lastIdxOf n cs = none := by
  induction cs with
  | nil => rfl
  | cons x xs ih =>
    simp only [List.map_cons, List.mem_cons, not_or] at h
    have hx : ¬ x.name = n := fun he => h.1 he.symm
    unfold lastIdxOf
    rw [ih h.2]
    simp [hx]

theorem lastIdxOf_append_name (n : Name) (cs : List ConfGroup) (a : ConfGroup)
    (h : a.name = n) : lastIdxOf n (cs ++ [a]) = some cs.length := by
  induction cs with
  | nil => simp [lastIdxOf, h]
  | cons x xs ih => simp [lastIdxOf, ih]

theorem navL_cons_inv (g : ConfGroup) (n : Name) (ns : List Name) (pos : List Nat)
    (h : navL g (n :: ns) = some pos) :
    ∃ i c p2, lastIdxOf n g.children = some i ∧ g.children.get? i = some c ∧
      navL c ns = some p2 ∧ pos = i :: p2 := by
  unfold navL at h
  split at h
  · exact absurd h (by simp)
  · next i hl =>
    split at h
    · exact absurd h (by simp)
    · next c hc =>
      rw [Option.map_eq_some'] at h
      obtain ⟨p2, hp2, hpos⟩ := h
      exact ⟨i, c, p2, hl, hc, hp2, hpos.symm⟩

theorem navL_modifyAt (P : List Name) (g : ConfGroup) (pos tail : List Nat)
    (f : ConfGroup → ConfGroup) (hf : ∀ h, (f h).name = h.name)
    (hnav : navL g P = some pos) :
    navL (modifyAt g (pos ++ tail) f) P = some pos := by
  induction P generalizing g pos with
  | nil =>
    simp only [navL, Option.some.injEq] at hnav
    subst hnav
    rfl
  | cons n ns ih =>
    obtain ⟨i, c, p2, hl, hc, hp2, hpos⟩ := navL_cons_inv g n ns pos hnav
    subst hpos
    have hname : ∀ h, (modifyAt h (p2 ++ tail) f).name = h.name :=
      fun h => modifyAt_name h _ f hf
    have hmod : modifyAt g ((i :: p2) ++ tail) f =
        ConfGroup.mk g.name g.items
          (listModify g.children i (fun x => modifyAt x (p2 ++ tail) f)) := by
      cases g
      rfl
    rw [hmod]
    have h1 : lastIdxOf n (listModify g.children i fun x => modifyAt x (p2 ++ tail) f) =
        some i := by
      rw [lastIdxOf_congr n _ g.children (listModify_map _ _ _ _ hname), hl]
    have h2 : (listModify g.children i fun x => modifyAt x (p2 ++ tail) f).get? i =
        some (modifyAt c (p2 ++ tail) f) := by
      rw [listModify_get?_self, hc, Option.map_some']
    have h2b : (listModify g.children i fun x => modifyAt x (p2 ++ tail) f)[i]? =
        some (modifyAt c (p2 ++ tail) f) := by
      rw [← List.get?_eq_getElem?]
      exact h2
    simp [navL, h1, h2, h2b, ih c p2 hp2]

theorem navL_snoc (P : List Name) (g : ConfGroup) (pos : List Nat) (h0 : ConfGroup)
    (n : Name) (i : Nat) (c : ConfGroup)
    (hnav : navL g P = some pos) (hget : getAt g pos = some h0)
    (hl : lastIdxOf n h0.children = some i) (hc : h0.children.get? i = some c) :
    navL g (P ++ [n]) = some (pos ++ [i]) := by
  induction P generalizing g pos with
  | nil =>
    simp only [navL, Option.some.injEq] at hnav
    subst hnav
    simp only [getAt, Option.some.injEq] at hget
    subst hget
    have hc2 : g.children[i]? = some c := by
      rw [← List.get?_eq_getElem?]
      exact hc
    simp [navL, hl, hc, hc2]
  | cons m ns ih =>
    obtain ⟨i0, c0, p2, hl0, hc0, hp2, hpos⟩ := navL_cons_inv g m ns pos hnav
    subst hpos
    simp only [getAt, hc0] at hget
    have hrec := ih c0 p2 hp2 hget
    have hc0b : g.children[i0]? = some c0 := by
      rw [← List.get?_eq_getElem?]
      exact hc0
    simp [navL, hl0, hc0, hc0b, hrec]

theorem getD_of_get? (l : List α) (i : Nat) (a d : α) (h : l.get? i = some a) :
    l.getD i d = a := by
  simp [List.getD_eq_getElem?_getD, ← List.get?_eq_getElem?, h]

theorem enterPath_spec (uG : Bool) (P : List Name) (g : ConfGroup) (n : Name)
    (pos : List Nat) (h0 : ConfGroup)
    (hnav : navL g P = some pos) (hget : getAt g pos = some h0)
    (hu : uG = true → lastIdxOf n h0.children = none) :
    enterPath uG g (P ++ [n]) =
      (modifyAt g pos (fun h => appendChild h (emptyGroup n)), pos ++ [h0.children.length]) := by
  induction P generalizing g pos with
  | nil =>
    simp only [navL, Option.some.injEq] at hnav
    subst hnav
    simp only [getAt, Option.some.injEq] at hget
    subst hget
    have hnone : (if uG then lastIdxOf n g.children else none) = none := by
      cases hg : uG with
      | false => rfl
      | true => simpa using hu hg
    simp [enterPath, hnone, modifyAt]
  | cons m ns ih =>
    obtain ⟨i0, c0, p2, hl0, hc0, hp2, hpos⟩ := navL_cons_inv g m ns pos hnav
    subst hpos
    simp only [getAt, hc0] at hget
    have hrec := ih c0 p2 hp2 hget
    cases g with
    | mk nm its cs =>
      simp only [ConfGroup.children_mk] at hl0 hc0
      have hshape : ∃ q qs, ns ++ [n] = q :: qs := by
        cases hns : ns ++ [n] with
        | nil => exact absurd hns (by simp)
        | cons q qs => exact ⟨q, qs, rfl⟩
      obtain ⟨q, qs, hqs⟩ := hshape
      show enterPath uG (ConfGroup.mk nm its cs) (m :: (ns ++ [n])) = _
      rw [hqs]
      simp only [enterPath, ConfGroup.children_mk, hl0]
      rw [getD_of_get? cs i0 c0 (emptyGroup []) hc0, ← hqs, hrec]
      simp only [List.cons_append, modifyAt, ConfGroup.name_mk, ConfGroup.items_mk,
        ConfGroup.children_mk, Prod.mk.injEq, ConfGroup.mk.injEq, true_and]
      constructor
      · exact listModify_congr_at _ _ _ _ (fun a ha => by
          rw [ha] at hc0
          cases hc0
          rfl)
      · trivial

/-! Lemmas about keys, duplicate detection and item lines. -/

theorem contains_false_iff (l : List Name) (a : Name) : l.contains a = false ↔ a ∉ l := by
  rw [← Bool.not_eq_true, not_iff_not]
  exact List.elem_iff

theorem namesNodup_middle_not_mem (xs ys : List Name) (n : Name)
    (h : namesNodup (xs ++ n :: ys) = true) : n ∉ xs := by
  induction xs with
  | nil => simp
  | cons x xs ih =>
    simp only [List.cons_append, namesNodup, Bool.and_eq_true, Bool.not_eq_true'] at h
    intro hmem
    rcases List.mem_cons.mp hmem with he | hm
    · subst he
      exact (contains_false_iff _ _).mp h.1 (by simp)
    · exact ih h.2 hm

theorem namesNodup_middle_contains (xs ys : List Name) (n : Name)
    (h : namesNodup (xs ++ n :: ys) = true) : xs.contains n = false :=
  (contains_false_iff _ _).mpr (namesNodup_middle_not_mem xs ys n h)

theorem classify_of_wfItem (it : ConfItem) (h : wfItem it = true) :
    classify (serializeItem it) = itemKind it := by
  simpa [wfItem] using h

theorem kvKeys_append (xs ys : List ConfItem) : kvKeys (xs ++ ys) = kvKeys xs ++ kvKeys ys := by
  simp [kvKeys]

theorem kvKeys_kv (k : KVData) (rest : List ConfItem) :
    kvKeys (.kv k :: rest) = k.key :: kvKeys rest := by
  simp [kvKeys]

theorem kvKeys_comment (t : Line) (rest : List ConfItem) :
    kvKeys (.comment t :: rest) = kvKeys rest := by
  simp [kvKeys]

theorem kvKeys_blank (t : Line) (rest : List ConfItem) :
    kvKeys (.blank t :: rest) = kvKeys rest := by
  simp [kvKeys]

theorem processLines_append (flags : Flags) (st : PState) (l1 l2 : List Line) :
    processLines flags st (l1 ++ l2) = processLines flags (processLines flags st l1) l2 := by
  simp [processLines]

theorem processLines_cons (flags : Flags) (st : PState) (l : Line) (ls : List Line) :
    processLines flags st (l :: ls) = processLines flags (stepLine flags st l) ls := rfl

theorem processItems (flags : Flags) (hsc : flags.skipComments = false)
    (its : List ConfItem) : ∀ (st : PState) (g0 : ConfGroup),
    getAt st.root st.pos = some g0 →
    its.all wfItem = true →
    (flags.uniqueKeys = true → namesNodup (kvKeys g0.items ++ kvKeys its) = true) →
    processLines flags st (its.map serializeItem) =
      ⟨modifyAt st.root st.pos (fun g => appendItems g its), st.pos, st.valid⟩ := by
  induction its with
  | nil =>
    intro st g0 hget hwf hkeys
    have hm : modifyAt st.root st.pos (fun g => appendItems g []) = st.root := by
      rw [modifyAt_congr _ _ _ (fun x => x)
        (fun h => by simp [appendItems, confGroup_eta])]
      exact modifyAt_id _ _
    simp [processLines, hm]
  | cons it rest ih =>
    intro st g0 hget hwf hkeys
    simp only [List.all_cons, Bool.and_eq_true] at hwf
    have hcl := classify_of_wfItem it hwf.1
    have hstep : stepLine flags st (serializeItem it) =
        ⟨modifyAt st.root st.pos (fun g => appendItem g it), st.pos, st.valid⟩ := by
      cases it with
      | blank t =>
        have hcl2 : classify t = LineKind.blankL := by
          simpa [serializeItem, itemKind] using hcl
        simp [stepLine, serializeItem, hcl2]
      | comment t =>
        have hcl2 : classify t = LineKind.commentL := by
          simpa [serializeItem, itemKind] using hcl
        simp [stepLine, serializeItem, hcl2, hsc]
      | kv k =>
        have hcl2 : classify (k.key ++ (k.ws1 ++ '=' :: (k.ws2 ++ k.value))) =
            LineKind.kvL k := by
          simpa [serializeItem, itemKind, List.append_assoc] using hcl
        have hcur : (getAt st.root st.pos).getD (emptyGroup []) = g0 := by
          rw [hget]
          rfl
        have hcond : (flags.uniqueKeys && keyExistsG g0 k.key) = false := by
          cases hu : flags.uniqueKeys with
          | false => rfl
          | true =>
            have hk := hkeys hu
            rw [kvKeys_kv] at hk
            have hnm : k.key ∉ kvKeys g0.items := namesNodup_middle_not_mem _ _ _ hk
            rw [Bool.true_and]
            exact (contains_false_iff _ _).mpr hnm
        have hcond2 : ¬(flags.uniqueKeys = true ∧
            keyExistsG ((getAt st.root st.pos).getD (emptyGroup [])) k.key = true) := by
          rw [hcur]
          intro hand
          rw [hand.1, hand.2] at hcond
          exact absurd hcond (by simp)
        simp [stepLine, serializeItem, hcl2, hcond2]
    rw [List.map_cons, processLines_cons, hstep]
    have hget2 : getAt (modifyAt st.root st.pos (fun g => appendItem g it)) st.pos =
        some (appendItem g0 it) := by
      rw [getAt_modifyAt_self, hget]
      rfl
    have hkeys2 : flags.uniqueKeys = true →
        namesNodup (kvKeys (appendItem g0 it).items ++ kvKeys rest) = true := by
      intro hu
      have hk := hkeys hu
      cases it with
      | blank t => simpa [appendItem, kvKeys_append, kvKeys_blank] using hk
      | comment t => simpa [appendItem, kvKeys_append, kvKeys_comment] using hk
      | kv k =>
        rw [kvKeys_kv] at hk
        simp only [appendItem, ConfGroup.items_mk, kvKeys_append, kvKeys_kv]
        simpa [List.append_assoc] using hk
    have := ih ⟨modifyAt st.root st.pos (fun g => appendItem g it), st.pos, st.valid⟩
      (appendItem g0 it) hget2 hwf.2 hkeys2
    rw [this]
    simp only [modifyAt_modifyAt]
    rw [modifyAt_congr _ _ _ (fun g => appendItems g (it :: rest))
      (fun h => by simp [appendItem, appendItems])]

/-! Classification of a serialized header line. -/

theorem splitSlash_no_slash (l : List Char) (h : '/' ∉ l) : splitSlash l = [l] := by
  induction l with
  | nil => rfl
  | cons c rest ih =>
    simp only [List.mem_cons, not_or] at h
    have hc : ¬ c = '/' := fun he => h.1 he.symm
    simp [splitSlash, hc, ih h.2]

theorem splitSlash_append_slash (x : List Char) (hx : '/' ∉ x) (s : List Char) :
    splitSlash (x ++ '/' :: s) = x :: splitSlash s := by
  induction x with
  | nil => simp [splitSlash]
  | cons c cr ih =>
    simp only [List.mem_cons, not_or] at hx
    have hc : ¬ c = '/' := fun he => hx.1 he.symm
    simp only [List.cons_append, splitSlash, if_neg hc, List.append_eq]
    rw [ih hx.2]

theorem splitSlash_joinSlash (names : List Name) (hne : names ≠ [])
    (h : ∀ n ∈ names, '/' ∉ n) : splitSlash (joinSlash names) = names := by
  induction names with
  | nil => exact absurd rfl hne
  | cons n ns ih =>
    cases ns with
    | nil => exact splitSlash_no_slash n (h n (by simp))
    | cons m ms =>
      have hjoin : joinSlash (n :: m :: ms) = n ++ '/' :: joinSlash (m :: ms) := rfl
      rw [hjoin, splitSlash_append_slash n (h n (by simp)),
        ih (by simp) (fun x hx => h x (List.mem_cons_of_mem n hx))]

theorem trim_of_ends (l : List Char) (a b : Char) (x : List Char)
    (hl : l = a :: (x ++ [b])) (ha : isWs a = false) (hb : isWs b = false) :
    trim l = l := by
  subst hl
  have h1 : trimLeft (a :: (x ++ [b])) = a :: (x ++ [b]) := by
    simp [trimLeft, ha]
  rw [trim, h1]
  simp only [dropTrailingWs, List.reverse_cons, List.reverse_append]
  simp [hb]

theorem getLast?_concat_cons (a : Char) (x : List Char) (b : Char) :
    (a :: (x ++ [b])).getLast? = some b := by
  induction x generalizing a with
  | nil => simp
  | cons y ys ih =>
    rw [show a :: ((y :: ys) ++ [b]) = a :: y :: (ys ++ [b]) from rfl,
      List.getLast?_cons_cons]
    exact ih y

theorem classify_headerLine (names : List Name) (hne : names ≠ [])
    (h : names.all validName = true) : classify (headerLine names) = .headerL names := by
  have hmem : ∀ n ∈ names, '/' ∉ n ∧ n ≠ [] := by
    intro n hn
    have := List.all_eq_true.mp h n hn
    simp only [validName, Bool.and_eq_true, List.all_eq_true] at this
    constructor
    · intro hs
      have := (this.2 '/' hs).1
      simp at this
    · simpa using this.1
  have htrim : trim (headerLine names) = headerLine names :=
    trim_of_ends _ '[' ']' (joinSlash names) rfl (by decide) (by decide)
  have hlast : (headerLine names).getLast? = some ']' := getLast?_concat_cons _ _ _
  have hsplit : splitSlash (((headerLine names).drop 1).dropLast) = names := by
    have hdrop : ((headerLine names).drop 1).dropLast = joinSlash names := by
      simp [headerLine, List.dropLast_concat]
    rw [hdrop]
    exact splitSlash_joinSlash names hne (fun n hn => (hmem n hn).1)
  have hall : (splitSlash (((headerLine names).drop 1).dropLast)).all
      (fun p => !p.isEmpty) = true := by
    rw [hsplit]
    rw [List.all_eq_true]
    intro p hp
    simpa using (hmem p hp).2
  unfold classify
  rw [htrim]
  have hne2 : headerLine names ≠ [] := by simp [headerLine]
  rw [if_neg hne2]
  have hhead : (headerLine names).head? = some '[' := rfl
  rw [hhead]
  have hno : ¬(some '[' = some '#' ∨ some '[' = some ';') := by decide
  rw [if_neg hno, if_pos rfl, hlast, if_pos rfl, hsplit, if_pos (hsplit ▸ hall)]

/-! The depth-first reconstruction lemma: processing the serialized lines
of a forest of well-formed groups grafts exactly that forest under the
current group. -/

theorem processForest (flags : Flags) (hsc : flags.skipComments = false) :
    ∀ (fuel : Nat) (cs : List ConfGroup), sizeOf cs ≤ fuel →
    ∀ (st : PState) (P : List Name) (pos : List Nat) (g0 : ConfGroup),
    st.valid = true →
    P.all validName = true →
    navL st.root P = some pos →
    getAt st.root pos = some g0 →
    wfForestB flags.uniqueGroups flags.uniqueKeys cs = true →
    (flags.uniqueGroups = true →
      namesNodup (g0.children.map ConfGroup.name ++ cs.map ConfGroup.name) = true) →
    ∃ pos2, processLines flags st (serializeForestLines P cs) =
      ⟨modifyAt st.root pos (fun h => appendChildren h cs), pos2, true⟩ := by
  intro fuel
  induction fuel with
  | zero =>
    intro cs hsz
    exfalso
    cases cs <;> simp at hsz
  | succ fuel ih =>
    intro cs hsz st P pos g0 hvalid hP hnav hget hwf hnodup
    cases cs with
    | nil =>
      refine ⟨st.pos, ?_⟩
      have hmod : modifyAt st.root pos (fun h => appendChildren h []) = st.root := by
        rw [modifyAt_congr _ _ _ (fun x => x)
          (fun h => by simp [appendChildren, confGroup_eta])]
        exact modifyAt_id _ _
      simp only [serializeForestLines, processLines, List.foldl_nil, hmod]
      rw [← hvalid]
    | cons c cs2 =>
      obtain ⟨n, its, ch⟩ := c
      have hszb : sizeOf ch ≤ fuel ∧ sizeOf cs2 ≤ fuel := by
        simp only [List.cons.sizeOf_spec, ConfGroup.mk.sizeOf_spec] at hsz
        constructor <;> omega
      have hwfs : wfGroupB flags.uniqueGroups flags.uniqueKeys (ConfGroup.mk n its ch) = true ∧
          wfForestB flags.uniqueGroups flags.uniqueKeys cs2 = true := by
        simpa [wfForestB, Bool.and_eq_true] using hwf
      have hwfg := hwfs.1
      simp only [wfGroupB, Bool.and_eq_true] at hwfg
      obtain ⟨⟨⟨⟨hvn, hitems⟩, hkeysnd⟩, hchildnd⟩, hwfch⟩ := hwfg
      have hitems2 : its.all wfItem = true := by
        rw [List.all_eq_true] at hitems ⊢
        intro it hit
        have hx := hitems it hit
        simp only [Bool.and_eq_true] at hx
        exact hx.1
      have hPn : (P ++ [n]).all validName = true := by
        rw [List.all_append]
        simp [hP, hvn]
      have hser : serializeForestLines P (ConfGroup.mk n its ch :: cs2) =
          headerLine (P ++ [n]) ::
            ((its.map serializeItem ++ serializeForestLines (P ++ [n]) ch) ++
              serializeForestLines P cs2) := by
        simp [serializeForestLines, serializeGroupLines]
      have hclh : classify (headerLine (P ++ [n])) = .headerL (P ++ [n]) :=
        classify_headerLine _ (by simp) hPn
      have hlnone : flags.uniqueGroups = true → lastIdxOf n g0.children = none := by
        intro hu
        have hnd := hnodup hu
        simp only [List.map_cons] at hnd
        exact lastIdxOf_eq_none_of_not_mem n g0.children
          (namesNodup_middle_not_mem _ _ _ hnd)
      have henter := enterPath_spec flags.uniqueGroups P st.root n pos g0 hnav hget hlnone
      have hstep : stepLine flags st (headerLine (P ++ [n])) =
          ⟨modifyAt st.root pos (fun h => appendChild h (emptyGroup n)),
            pos ++ [g0.children.length], st.valid⟩ := by
        simp [stepLine, hclh, henter]
      rw [hser, processLines_cons, hstep, hvalid]
      set k := g0.children.length with hkdef
      set root1 := modifyAt st.root pos (fun h => appendChild h (emptyGroup n)) with hr1
      have hgetr1 : getAt root1 pos = some (appendChild g0 (emptyGroup n)) := by
        rw [hr1, getAt_modifyAt_self, hget]
        rfl
      have hget1 : getAt root1 (pos ++ [k]) = some (emptyGroup n) := by
        rw [getAt_append, hgetr1]
        show getAt (appendChild g0 (emptyGroup n)) [k] = some (emptyGroup n)
        simp [getAt, appendChild, hkdef, get?_append_length]
      have hkeys1 : flags.uniqueKeys = true →
          namesNodup (kvKeys (emptyGroup n).items ++ kvKeys its) = true := by
        intro hu
        rw [hu] at hkeysnd
        simp only [Bool.not_true, Bool.false_or] at hkeysnd
        simpa [emptyGroup, kvKeys] using hkeysnd
      have hitemsproc := processItems flags hsc its ⟨root1, pos ++ [k], true⟩
        (emptyGroup n) hget1 hitems2 hkeys1
      rw [processLines_append, processLines_append, hitemsproc]
      set root2 := modifyAt root1 (pos ++ [k]) (fun g => appendItems g its) with hr2
      have happ : appendItems (emptyGroup n) its = ConfGroup.mk n its [] := by
        simp [appendItems, emptyGroup]
      have hgetr2pos : getAt root2 pos =
          some (ConfGroup.mk g0.name g0.items (g0.children ++ [ConfGroup.mk n its []])) := by
        rw [hr2, modifyAt_append, getAt_modifyAt_self, hgetr1]
        simp only [Option.map_some', Option.some.injEq]
        show modifyAt (appendChild g0 (emptyGroup n)) [k] (fun g => appendItems g its) = _
        have : modifyAt (appendChild g0 (emptyGroup n)) [k] (fun g => appendItems g its) =
            ConfGroup.mk g0.name g0.items
              (listModify (g0.children ++ [emptyGroup n]) k (fun g => appendItems g its)) := by
          cases g0
          rfl
        rw [this, hkdef, listModify_append_length, happ]
      have hnavr2 : navL root2 P = some pos := by
        rw [hr2, hr1]
        have h1 : navL (modifyAt st.root pos (fun h => appendChild h (emptyGroup n))) P =
            some pos := by
          have := navL_modifyAt P st.root pos [] (fun h => appendChild h (emptyGroup n))
            (fun h => by simp [appendChild]) hnav
          simpa using this
        exact navL_modifyAt P _ pos [k] (fun g => appendItems g its)
          (fun h => by simp [appendItems]) h1
      have hnav2 : navL root2 (P ++ [n]) = some (pos ++ [k]) := by
        refine navL_snoc P root2 pos
          (ConfGroup.mk g0.name g0.items (g0.children ++ [ConfGroup.mk n its []]))
          n k (ConfGroup.mk n its []) hnavr2 hgetr2pos ?_ ?_
        · rw [ConfGroup.children_mk, hkdef]
          exact lastIdxOf_append_name n g0.children _ rfl
        · rw [ConfGroup.children_mk, hkdef]
          exact get?_append_length _ _
      have hget2 : getAt root2 (pos ++ [k]) = some (ConfGroup.mk n its []) := by
        rw [getAt_append, hgetr2pos]
        show getAt (ConfGroup.mk g0.name g0.items
          (g0.children ++ [ConfGroup.mk n its []])) [k] = some (ConfGroup.mk n its [])
        simp [getAt, hkdef, get?_append_length]
      have hnodup2 : flags.uniqueGroups = true →
          namesNodup ((ConfGroup.mk n its []).children.map ConfGroup.name ++
            ch.map ConfGroup.name) = true := by
        intro hu
        rw [hu] at hchildnd
        simp only [Bool.not_true, Bool.false_or] at hchildnd
        simpa using hchildnd
      obtain ⟨pos3, hch⟩ := ih ch hszb.1 ⟨root2, pos ++ [k], true⟩ (P ++ [n]) (pos ++ [k])
        (ConfGroup.mk n its []) rfl hPn hnav2 hget2 hwfch hnodup2
      rw [hch]
      set root3 := modifyAt root2 (pos ++ [k]) (fun h => appendChildren h ch) with hr3
      have s1 : modifyAt (appendChild g0 (emptyGroup n)) [k] (fun g => appendItems g its) =
          ConfGroup.mk g0.name g0.items (g0.children ++ [ConfGroup.mk n its []]) := by
        have hs : modifyAt (appendChild g0 (emptyGroup n)) [k] (fun g => appendItems g its) =
            ConfGroup.mk g0.name g0.items
              (listModify (g0.children ++ [emptyGroup n]) k (fun g => appendItems g its)) := by
          cases g0
          rfl
        rw [hs, hkdef, listModify_append_length, happ]
      have hroot3 : root3 =
          modifyAt st.root pos (fun h => appendChild h (ConfGroup.mk n its ch)) := by
        rw [hr3, hr2, hr1, modifyAt_append, modifyAt_append, modifyAt_modifyAt,
          modifyAt_modifyAt]
        refine modifyAt_congr_at st.root pos _ _ g0 hget ?_
        show modifyAt (modifyAt (appendChild g0 (emptyGroup n)) [k]
            (fun g => appendItems g its)) [k] (fun h => appendChildren h ch) =
          appendChild g0 (ConfGroup.mk n its ch)
        rw [s1]
        have s2 : modifyAt (ConfGroup.mk g0.name g0.items
            (g0.children ++ [ConfGroup.mk n its []])) [k] (fun h => appendChildren h ch) =
            ConfGroup.mk g0.name g0.items
              (listModify (g0.children ++ [ConfGroup.mk n its []]) k
                (fun h => appendChildren h ch)) := rfl
        rw [s2, hkdef, listModify_append_length]
        simp [appendChildren, appendChild]
      have hnav3 : navL root3 P = some pos := by
        rw [hroot3]
        have := navL_modifyAt P st.root pos []
          (fun h => appendChild h (ConfGroup.mk n its ch))
          (fun h => by simp [appendChild]) hnav
        simpa using this
      have hget3 : getAt root3 pos = some (appendChild g0 (ConfGroup.mk n its ch)) := by
        rw [hroot3, getAt_modifyAt_self, hget]
        rfl
      have hnodup3 : flags.uniqueGroups = true →
          namesNodup ((appendChild g0 (ConfGroup.mk n its ch)).children.map ConfGroup.name ++
            cs2.map ConfGroup.name) = true := by
        intro hu
        have hnd := hnodup hu
        simp only [appendChild, ConfGroup.children_mk, List.map_append, List.map_cons,
          List.map_nil, ConfGroup.name_mk, List.append_assoc, List.singleton_append]
        simpa using hnd
      obtain ⟨pos4, hrest⟩ := ih cs2 hszb.2 ⟨root3, pos3, true⟩ P pos
        (appendChild g0 (ConfGroup.mk n its ch)) rfl hP hnav3 hget3 hwfs.2 hnodup3
      rw [hrest]
      refine ⟨pos4, ?_⟩
      have hfinal : modifyAt root3 pos (fun h => appendChildren h cs2) =
          modifyAt st.root pos (fun h => appendChildren h (ConfGroup.mk n its ch :: cs2)) := by
        rw [hroot3, modifyAt_modifyAt]
        exact modifyAt_congr _ _ _ _
          (fun h => by simp [appendChild, appendChildren])
      rw [hfinal]

/-! Lemmas about line splitting, rendering and end-of-line detection. -/

theorem getLast?_cons_ne_nil (x : Line) (l : List Line) (h : l ≠ []) :
    (x :: l).getLast? = l.getLast? := by
  cases l with
  | nil => exact absurd rfl h
  | cons y ys => exact List.getLast?_cons_cons

theorem getLast?_cons_ne_none (x : Line) (l : List Line) (h : (x :: l).getLast? = none) :
    False := by
  induction l generalizing x with
  | nil => simp at h
  | cons y ys ih =>
    rw [List.getLast?_cons_cons] at h
    exact ih y h

theorem splitLinesCore_ne_nil (s : List Char) : splitLinesCore s ≠ [] := by
  induction s with
  | nil => simp [splitLinesCore]
  | cons c rest ih =>
    by_cases hc : c = '\n'
    · simp [splitLinesCore, hc]
    · simp only [splitLinesCore, if_neg hc]
      cases h : splitLinesCore rest with
      | nil => simp
      | cons p ps => simp

theorem splitLinesCore_no_newline (l : List Char) (h : '\n' ∉ l) : splitLinesCore l = [l] := by
  induction l with
  | nil => rfl
  | cons c rest ih =>
    simp only [List.mem_cons, not_or] at h
    have hc : ¬ c = '\n' := fun he => h.1 he.symm
    rw [show splitLinesCore (c :: rest) =
      (if c = '\n' then [] :: splitLinesCore rest else
        match splitLinesCore rest with
        | [] => [[c]]
        | p :: ps => (c :: p) :: ps) from rfl, if_neg hc, ih h.2]

theorem splitLinesCore_append_newline (l : List Char) (h : '\n' ∉ l) (s : List Char) :
    splitLinesCore (l ++ '\n' :: s) = l :: splitLinesCore s := by
  induction l with
  | nil =>
    show splitLinesCore ('\n' :: s) = [] :: splitLinesCore s
    rw [show splitLinesCore ('\n' :: s) =
      (if '\n' = '\n' then [] :: splitLinesCore s else
        match splitLinesCore s with
        | [] => [['\n']]
        | p :: ps => ('\n' :: p) :: ps) from rfl, if_pos rfl]
  | cons c rest ih =>
    simp only [List.mem_cons, not_or] at h
    have hc : ¬ c = '\n' := fun he => h.1 he.symm
    rw [List.cons_append,
      show splitLinesCore (c :: (rest ++ '\n' :: s)) =
      (if c = '\n' then [] :: splitLinesCore (rest ++ '\n' :: s) else
        match splitLinesCore (rest ++ '\n' :: s) with
        | [] => [[c]]
        | p :: ps => (c :: p) :: ps) from rfl, if_neg hc, ih h.2]

theorem getLast?_append_singleton (l : List Char) (a : Char) :
    (l ++ [a]).getLast? = some a := by
  simp [List.getLast?_concat]

theorem mem_of_getLast?_eq (l : List Char) (x : Char) (h : l.getLast? = some x) : x ∈ l := by
  induction l with
  | nil => simp at h
  | cons a as ih =>
    cases as with
    | nil =>
      simp only [List.getLast?_singleton, Option.some.injEq] at h
      simp [h]
    | cons b bs =>
      rw [List.getLast?_cons_cons] at h
      exact List.mem_cons_of_mem a (ih h)

theorem stripCR_no_cr (l : List Char) (h : '\r' ∉ l) : stripCR l = l := by
  unfold stripCR
  cases hgl : l.getLast? with
  | none => simp
  | some x =>
    have hx : x ∈ l := mem_of_getLast?_eq l x hgl
    have hxr : ¬ x = '\r' := fun he => h (he ▸ hx)
    rw [if_neg (fun he => hxr (Option.some.inj he))]

theorem stripCR_append_cr (l : List Char) : stripCR (l ++ ['\r']) = l := by
  unfold stripCR
  rw [getLast?_append_singleton]
  simp [List.dropLast_concat]

theorem cleanLine_not_mem (l : Line) (h : cleanLine l = true) : '\n' ∉ l ∧ '\r' ∉ l := by
  simp only [cleanLine, List.all_eq_true, Bool.and_eq_true, decide_eq_true_eq] at h
  constructor
  · intro hm
    exact (h '\n' hm).1 rfl
  · intro hm
    exact (h '\r' hm).2 rfl

theorem splitLines_prepend (l : Line) (hnl : '\n' ∉ l) (hnr : '\r' ∉ l) (eolW : Bool)
    (R : List Char) :
    splitLines (l ++ (eolChars eolW ++ R)) =
      (l :: (splitLines R).1, (splitLines R).2) := by
  have hcore : splitLinesCore (l ++ (eolChars eolW ++ R)) =
      (if eolW then l ++ ['\r'] else l) :: splitLinesCore R := by
    cases eolW with
    | false => simpa [eolChars] using splitLinesCore_append_newline l hnl R
    | true =>
      have h2 : '\n' ∉ l ++ ['\r'] := by
        simp only [List.mem_append, List.mem_singleton, not_or]
        exact ⟨hnl, by decide⟩
      have := splitLinesCore_append_newline (l ++ ['\r']) h2 R
      simpa [eolChars, List.append_assoc] using this
  have hstrip : stripCR (if eolW then l ++ ['\r'] else l) = l := by
    cases eolW with
    | false => simpa using stripCR_no_cr l hnr
    | true => simpa using stripCR_append_cr l
  have hne : (splitLinesCore R).map stripCR ≠ [] := by
    intro hcontra
    exact splitLinesCore_ne_nil R (List.map_eq_nil_iff.mp hcontra)
  unfold splitLines
  rw [hcore]
  simp only [List.map_cons, hstrip]
  rw [getLast?_cons_ne_nil l _ hne]
  cases hm : ((splitLinesCore R).map stripCR).getLast? with
  | none =>
    exfalso
    cases hps : (splitLinesCore R).map stripCR with
    | nil => exact hne hps
    | cons a as =>
      rw [hps] at hm
      exact getLast?_cons_ne_none a as hm
  | some x =>
    cases x with
    | nil =>
      simp only
      rw [List.dropLast_cons_of_ne_nil hne]
    | cons c cr =>
      simp only

theorem splitLines_render (eolW fin : Bool) (ls : List Line)
    (hclean : ls.all cleanLine = true)
    (hEmpty : ls = [] → fin = true)
    (hLast : fin = false → ls.getLast? ≠ some []) :
    splitLines (renderLines eolW fin ls) = (ls, fin) := by
  induction ls with
  | nil =>
    have hf := hEmpty rfl
    subst hf
    rfl
  | cons l ls' ih =>
    simp only [List.all_cons, Bool.and_eq_true] at hclean
    obtain ⟨hcl, hclean'⟩ := hclean
    obtain ⟨hnl, hnr⟩ := cleanLine_not_mem l hcl
    cases ls' with
    | nil =>
      cases hf : fin with
      | true =>
        have hrend : renderLines eolW true [l] = l ++ (eolChars eolW ++ []) := by
          simp [renderLines]
        rw [hrend, splitLines_prepend l hnl hnr eolW []]
        rfl
      | false =>
        have hlne : l ≠ [] := by
          intro hl0
          exact (hLast hf) (by simp [hl0])
        have hrend : renderLines eolW false [l] = l := by
          simp [renderLines]
        rw [hrend]
        unfold splitLines
        rw [splitLinesCore_no_newline l hnl]
        simp only [List.map_cons, List.map_nil, stripCR_no_cr l hnr]
        cases l with
        | nil => exact absurd rfl hlne
        | cons c cr => simp
    | cons l2 ls2 =>
      have hrend : renderLines eolW fin (l :: l2 :: ls2) =
          l ++ (eolChars eolW ++ renderLines eolW fin (l2 :: ls2)) := by
        simp [renderLines, List.append_assoc]
      have hLast2 : fin = false → (l2 :: ls2).getLast? ≠ some [] := by
        intro hf
        have := hLast hf
        rw [getLast?_cons_ne_nil l (l2 :: ls2) (by simp)] at this
        exact this
      rw [hrend, splitLines_prepend l hnl hnr eolW _,
        ih hclean' (fun hc => absurd hc (by simp)) hLast2]

theorem detect_no_cr (s : List Char) (h : '\r' ∉ s) : detectEolW s = false := by
  induction s with
  | nil => rfl
  | cons c rest ih =>
    simp only [List.mem_cons, not_or] at h
    have hc : ¬ c = '\r' := fun he => h.1 he.symm
    by_cases hn : c = '\n'
    · simp [detectEolW, hn]
    · have hcc : (c = '\r' && rest.head? = some '\n') = false := by
        simp [hc]
      simp [detectEolW, hn, hcc, ih h.2]

theorem render_no_cr (fin : Bool) (ls : List Line) (h : ls.all cleanLine = true) :
    '\r' ∉ renderLines false fin ls := by
  induction ls with
  | nil => simp [renderLines]
  | cons l ls' ih =>
    simp only [List.all_cons, Bool.and_eq_true] at h
    have hnr := (cleanLine_not_mem l h.1).2
    cases ls' with
    | nil =>
      simp only [renderLines, eolChars, List.mem_append, not_or]
      refine ⟨hnr, ?_⟩
      cases fin <;> simp
    | cons l2 ls2 =>
      simp only [renderLines, eolChars, List.mem_append, List.mem_cons, not_or]
      exact ⟨⟨hnr, by simp⟩, ih h.2⟩

theorem detect_clean_append_crlf (l : Line) (hcl : cleanLine l = true) (s : List Char) :
    detectEolW (l ++ '\r' :: '\n' :: s) = true := by
  induction l with
  | nil => rfl
  | cons c cr ih =>
    simp only [cleanLine, List.all_cons, Bool.and_eq_true, decide_eq_true_eq] at hcl
    have hn : ¬ c = '\n' := hcl.1.1
    have hr : ¬ c = '\r' := hcl.1.2
    have hcc : (c = '\r' && (cr ++ '\r' :: '\n' :: s).head? = some '\n') = false := by
      simp [hr]
    have hrec := ih (by
      simp only [cleanLine, List.all_eq_true]
      intro x hx
      have := List.all_eq_true.mp (by
        simp only [cleanLine] at *
        exact hcl.2) x hx
      exact this)
    simp [detectEolW, hn, hcc, hrec]

/-! Cleanliness of serialized lines. -/

theorem mem_joinSlash (c : Char) (names : List Name) (h : c ∈ joinSlash names) :
    c = '/' ∨ ∃ n, n ∈ names ∧ c ∈ n := by
  induction names with
  | nil => simp [joinSlash] at h
  | cons n ns ih =>
    cases ns with
    | nil => exact Or.inr ⟨n, by simp, h⟩
    | cons m ms =>
      rw [show joinSlash (n :: m :: ms) = n ++ '/' :: joinSlash (m :: ms) from rfl] at h
      simp only [List.mem_append, List.mem_cons] at h
      rcases h with h1 | h2 | h3
      · exact Or.inr ⟨n, by simp, h1⟩
      · exact Or.inl h2
      · rcases ih h3 with ha | ⟨x, hx, hcx⟩
        · exact Or.inl ha
        · exact Or.inr ⟨x, List.mem_cons_of_mem n hx, hcx⟩

theorem headerLine_clean (names : List Name) (h : names.all validName = true) :
    cleanLine (headerLine names) = true := by
  rw [cleanLine, List.all_eq_true]
  intro c hc
  have hcases : c = '[' ∨ c ∈ joinSlash names ∨ c = ']' := by
    simpa [headerLine] using hc
  rcases hcases with h1 | h2 | h3
  · subst h1; decide
  · rcases mem_joinSlash c names h2 with hs | ⟨n, hn, hcn⟩
    · subst hs; decide
    · have hv := List.all_eq_true.mp h n hn
      simp only [validName, Bool.and_eq_true, List.all_eq_true] at hv
      have hvc := hv.2 c hcn
      simp only [Bool.and_eq_true, decide_eq_true_eq] at hvc
      simp only [Bool.and_eq_true, decide_eq_true_eq]
      exact ⟨hvc.1.2, hvc.2⟩
  · subst h3; decide

theorem serializeForest_clean (uG uK : Bool) :
    ∀ (fuel : Nat) (cs : List ConfGroup), sizeOf cs ≤ fuel →
    ∀ (P : List Name), P.all validName = true →
    wfForestB uG uK cs = true →
    (serializeForestLines P cs).all cleanLine = true := by
  intro fuel
  induction fuel with
  | zero =>
    intro cs hsz
    exfalso
    cases cs <;> simp at hsz
  | succ fuel ih =>
    intro cs hsz P hP hwf
    cases cs with
    | nil => simp [serializeForestLines]
    | cons c cs2 =>
      obtain ⟨n, its, ch⟩ := c
      have hszb : sizeOf ch ≤ fuel ∧ sizeOf cs2 ≤ fuel := by
        simp only [List.cons.sizeOf_spec, ConfGroup.mk.sizeOf_spec] at hsz
        constructor <;> omega
      have hwfs : wfGroupB uG uK (ConfGroup.mk n its ch) = true ∧
          wfForestB uG uK cs2 = true := by
        simpa [wfForestB, Bool.and_eq_true] using hwf
      have hwfg := hwfs.1
      simp only [wfGroupB, Bool.and_eq_true] at hwfg
      obtain ⟨⟨⟨⟨hvn, hitems⟩, _⟩, _⟩, hwfch⟩ := hwfg
      have hPn : (P ++ [n]).all validName = true := by
        rw [List.all_append]
        simp [hP, hvn]
      have hser : serializeForestLines P (ConfGroup.mk n its ch :: cs2) =
          headerLine (P ++ [n]) ::
            ((its.map serializeItem ++ serializeForestLines (P ++ [n]) ch) ++
              serializeForestLines P cs2) := by
        simp [serializeForestLines, serializeGroupLines]
      rw [hser]
      simp only [List.all_cons, List.all_append, Bool.and_eq_true]
      refine ⟨headerLine_clean _ hPn, ⟨?_, ih ch hszb.1 _ hPn hwfch⟩,
        ih cs2 hszb.2 _ hP hwfs.2⟩
      rw [List.all_eq_true]
      intro x hx
      obtain ⟨it, hit, hxit⟩ := List.mem_map.mp hx
      have := List.all_eq_true.mp hitems it hit
      simp only [Bool.and_eq_true] at this
      rw [← hxit]
      exact this.2

theorem serializeConf_clean (uG uK : Bool) (t : ConfGroup)
    (hwf : wfRootB uG uK t = true) :
    (serializeConfLines t).all cleanLine = true := by
  simp only [wfRootB, Bool.and_eq_true] at hwf
  obtain ⟨⟨⟨⟨_, hitems⟩, _⟩, _⟩, hwfch⟩ := hwf
  rw [serializeConfLines, List.all_append]
  simp only [Bool.and_eq_true]
  constructor
  · rw [List.all_eq_true]
    intro x hx
    obtain ⟨it, hit, hxit⟩ := List.mem_map.mp hx
    have := List.all_eq_true.mp hitems it hit
    simp only [Bool.and_eq_true] at this
    rw [← hxit]
    exact this.2
  · exact serializeForest_clean uG uK (sizeOf t.children) t.children (le_refl _) [] rfl hwfch

theorem detect_render (eolW fin : Bool) (ls : List Line)
    (hclean : ls.all cleanLine = true)
    (hEolW : eolW = true → 2 ≤ ls.length ∨ (ls ≠ [] ∧ fin = true)) :
    detectEolW (renderLines eolW fin ls) = eolW := by
  cases heol : eolW with
  | false => exact detect_no_cr _ (render_no_cr fin ls hclean)
  | true =>
    have hcases := hEolW heol
    obtain ⟨l, ls', hls, hdisj⟩ : ∃ l ls', ls = l :: ls' ∧ (ls' ≠ [] ∨ fin = true) := by
      rcases hcases with hlen | ⟨hne, hfin⟩
      · cases ls with
        | nil => simp at hlen
        | cons l ls' =>
          refine ⟨l, ls', rfl, ?_⟩
          cases ls' with
          | nil => simp at hlen
          | cons a b => exact Or.inl (by simp)
      · cases ls with
        | nil => exact absurd rfl hne
        | cons l ls' => exact ⟨l, ls', rfl, Or.inr hfin⟩
    subst hls
    simp only [List.all_cons, Bool.and_eq_true] at hclean
    obtain ⟨s, hs⟩ : ∃ s, renderLines true fin (l :: ls') = l ++ '\r' :: '\n' :: s := by
      cases ls' with
      | nil =>
        rcases hdisj with hne | hfin
        · exact absurd rfl hne
        · subst hfin
          exact ⟨[], by simp [renderLines, eolChars]⟩
      | cons l2 ls2 =>
        exact ⟨renderLines true fin (l2 :: ls2), by simp [renderLines, eolChars]⟩
    rw [hs]
    exact detect_clean_append_crlf l hclean.1 s

/-- C1 (amended): byte-exact lossless round trip for canonical files. For
every well-formed configuration tree, parsing the rendered serialization
of that tree, with flags that contain none of truncate, skip-comments, the
forcing end-of-line flags and read-only, yields a valid configuration
whose save writes back exactly the original bytes. Canonical means: lines
are the serialization of a tree (headers in canonical bracketed form in
depth-first order, unquoted values carrying no surrounding whitespace),
one consistent end-of-line style that is the detected one, and a trailing
terminator whenever the file is empty or ends with an empty line. -/
theorem configuration_roundtrip_canonical (flags : Flags) (t : ConfGroup)
    (eolW fin : Bool)
    (hT : flags.truncate = false) (hS : flags.skipComments = false)
    (hFU : flags.forceUnixEol = false) (hFW : flags.forceWindowsEol = false)
    (hRO : flags.readOnly = false)
    (hwf : wfRootB flags.uniqueGroups flags.uniqueKeys t = true)
    (hEmpty : serializeConfLines t = [] → fin = true)
    (hLast : fin = false → (serializeConfLines t).getLast? ≠ some [])
    (hEolW : eolW = true → 2 ≤ (serializeConfLines t).length ∨
      (serializeConfLines t ≠ [] ∧ fin = true)) :
    (parseChars flags false (renderLines eolW fin (serializeConfLines t))).valid = true ∧
    (parseChars flags false (renderLines eolW fin (serializeConfLines t))).save =
      some (renderLines eolW fin (serializeConfLines t)) := by
  have hwf2 := hwf
  simp only [wfRootB, Bool.and_eq_true] at hwf2
  obtain ⟨⟨⟨⟨hname, hitems⟩, hkeysnd⟩, hchildnd⟩, hwfch⟩ := hwf2
  have hcleanL : (serializeConfLines t).all cleanLine = true :=
    serializeConf_clean _ _ t hwf
  have hsplit : splitLines (renderLines eolW fin (serializeConfLines t)) =
      (serializeConfLines t, fin) :=
    splitLines_render eolW fin _ hcleanL hEmpty hLast
  have hdetect : detectEolW (renderLines eolW fin (serializeConfLines t)) = eolW :=
    detect_render eolW fin _ hcleanL hEolW
  have hitems2 : t.items.all wfItem = true := by
    rw [List.all_eq_true] at hitems ⊢
    intro it hit
    have hx := hitems it hit
    simp only [Bool.and_eq_true] at hx
    exact hx.1
  have hkeys0 : flags.uniqueKeys = true →
      namesNodup (kvKeys (emptyGroup []).items ++ kvKeys t.items) = true := by
    intro hu
    rw [hu] at hkeysnd
    simp only [Bool.not_true, Bool.false_or] at hkeysnd
    simpa [emptyGroup, kvKeys] using hkeysnd
  have hproc1 := processItems flags hS t.items ⟨emptyGroup [], [], true⟩
    (emptyGroup []) rfl hitems2 hkeys0
  have hroot1 : modifyAt (emptyGroup []) [] (fun g => appendItems g t.items) =
      ConfGroup.mk [] t.items [] := by
    simp [modifyAt, appendItems, emptyGroup]
  have hnodup0 : flags.uniqueGroups = true →
      namesNodup ((ConfGroup.mk ([] : Name) t.items []).children.map ConfGroup.name ++
        t.children.map ConfGroup.name) = true := by
    intro hu
    rw [hu] at hchildnd
    simp only [Bool.not_true, Bool.false_or] at hchildnd
    simpa using hchildnd
  obtain ⟨pos2, hproc2⟩ := processForest flags hS (sizeOf t.children) t.children
    (le_refl _) ⟨ConfGroup.mk [] t.items [], [], true⟩ [] [] (ConfGroup.mk [] t.items [])
    rfl rfl rfl rfl hwfch hnodup0
  have hroot2 : modifyAt (ConfGroup.mk ([] : Name) t.items []) []
      (fun h => appendChildren h t.children) = ConfGroup.mk [] t.items t.children := by
    simp [modifyAt, appendChildren]
  have hprocL : processLines flags ⟨emptyGroup [], [], true⟩ (serializeConfLines t) =
      ⟨ConfGroup.mk [] t.items t.children, pos2, true⟩ := by
    rw [serializeConfLines, processLines_append, hproc1, hroot1, hproc2, hroot2]
  have hparse : parseChars flags false (renderLines eolW fin (serializeConfLines t)) =
      ⟨flags, false, true, eolW, fin, ConfGroup.mk [] t.items t.children, false, false⟩ := by
    rw [parseChars, if_neg (by rw [hT]; exact Bool.false_ne_true), hsplit, hdetect]
    rw [show (serializeConfLines t, fin).1 = serializeConfLines t from rfl,
      show (serializeConfLines t, fin).2 = fin from rfl, hprocL]
  rw [hparse]
  refine ⟨rfl, ?_⟩
  rw [Configuration.save]
  have hcond : ((⟨flags, false, true, eolW, fin, ConfGroup.mk [] t.items t.children,
      false, false⟩ : Configuration).valid &&
      !(⟨flags, false, true, eolW, fin, ConfGroup.mk [] t.items t.children,
      false, false⟩ : Configuration).effectiveReadOnly) = true := by
    simp [Configuration.effectiveReadOnly, hRO]
  rw [if_pos hcond]
  have heol2 : (⟨flags, false, true, eolW, fin, ConfGroup.mk [] t.items t.children,
      false, false⟩ : Configuration).saveEolW = eolW := by
    simp [Configuration.saveEolW, hFW, hFU]
  rw [heol2]
  have hser2 : serializeConfLines
      ((⟨flags, false, true, eolW, fin, ConfGroup.mk [] t.items t.children,
      false, false⟩ : Configuration).root) = serializeConfLines t := by
    rw [serializeConfLines, serializeConfLines]
    rfl
  rw [show (⟨flags, false, true, eolW, fin, ConfGroup.mk [] t.items t.children,
      false, false⟩ : Configuration).finalEol = fin from rfl, hser2]

/-- C1, counterexample to the unrestricted claim: the valid input file
consisting of the line key=value followed by a space, parsed with the
empty flag set, which contains none of truncate, skip-comments or a
forcing end-of-line flag, saves as key=value without the trailing space,
so the written bytes differ from the original file. -/
theorem configuration_roundtrip_counterexample :
    (parseS Flags.default "key=value \n").isValid = true ∧
    Flags.default.truncate = false ∧ Flags.default.skipComments = false ∧
    Flags.default.forceUnixEol = false ∧ Flags.default.forceWindowsEol = false ∧
    (parseS Flags.default "key=value \n").saveS = some "key=value\n" ∧
    ("key=value\n" : String) ≠ ("key=value \n" : String) := by
  decide

/-- C1, witness: the amended round-trip theorem applied to a concrete
two-level tree with a comment, a key-value pair and a subgroup. -/
theorem configuration_roundtrip_canonical_witness :
    (parseChars Flags.default false (renderLines false true (serializeConfLines
      (ConfGroup.mk [] [ConfItem.comment ("# c").data,
        ConfItem.kv ⟨("key").data, [], [], ("value").data⟩]
        [ConfGroup.mk ("a").data [ConfItem.kv ⟨("k").data, [], [], ("v").data⟩]
          []])))).valid = true ∧
    (parseChars Flags.default false (renderLines false true (serializeConfLines
      (ConfGroup.mk [] [ConfItem.comment ("# c").data,
        ConfItem.kv ⟨("key").data, [], [], ("value").data⟩]
        [ConfGroup.mk ("a").data [ConfItem.kv ⟨("k").data, [], [], ("v").data⟩]
          []])))).save =
      some (renderLines false true (serializeConfLines
        (ConfGroup.mk [] [ConfItem.comment ("# c").data,
          ConfItem.kv ⟨("key").data, [], [], ("value").data⟩]
          [ConfGroup.mk ("a").data [ConfItem.kv ⟨("k").data, [], [], ("v").data⟩]
            []]))) :=
  configuration_roundtrip_canonical Flags.default _ false true rfl rfl rfl rfl rfl
    (by decide) (by decide) (by decide) (by decide)

/-- C5: the end-of-line style of a parsed file is detected from the first
terminator, and the style used on save is the forced one when a forcing
flag is present, the detected one otherwise; concretely, a Unix file
saves with Unix terminators, a Windows file with Windows terminators,
mixed terminators are normalized to the detected first style, and a new
truncated file opened with the force-Windows flag to which key=value is
added saves as that line with a Windows terminator. -/
theorem eol_detection_normalization_forcing (flags : Flags) (b : Bool) (s : List Char)
    (hT : flags.truncate = false) :
    (parseChars flags b s).saveEolW =
      (if flags.forceWindowsEol then true else if flags.forceUnixEol then false
        else detectEolW s) ∧
    (parseS Flags.default "key=value\n").saveS = some "key=value\n" ∧
    (parseS Flags.default "key=value\r\n").saveS = some "key=value\r\n" ∧
    (parseS Flags.default "key=value\r\nkey=value\n").saveS =
      some "key=value\r\nkey=value\r\n" ∧
    (((parseS ⟨false, true, false, false, false, false, true⟩ "").addValueAt []
      ("key").data ("value").data).2).saveS = some "key=value\r\n" := by
  refine ⟨?_, by decide, by decide, by decide, by decide⟩
  rw [parseChars, if_neg (by rw [hT]; exact Bool.false_ne_true)]
  rfl

/-- C5, witness: the end-of-line theorem applied to the empty flag set and
a concrete Unix file. -/
theorem eol_detection_normalization_forcing_witness :
    (parseChars Flags.default false ("x=1\n").data).saveEolW =
      (if Flags.default.forceWindowsEol then true
        else if Flags.default.forceUnixEol then false
        else detectEolW ("x=1\n").data) ∧
    (parseS Flags.default "key=value\n").saveS = some "key=value\n" ∧
    (parseS Flags.default "key=value\r\n").saveS = some "key=value\r\n" ∧
    (parseS Flags.default "key=value\r\nkey=value\n").saveS =
      some "key=value\r\nkey=value\r\n" ∧
    (((parseS ⟨false, true, false, false, false, false, true⟩ "").addValueAt []
      ("key").data ("value").data).2).saveS = some "key=value\r\n" :=
  eol_detection_normalization_forcing Flags.default false ("x=1\n").data rfl

/-- C9: opening a file with the truncate flag discards all parsed
content: every key count at every path is zero immediately after
construction, and saving without adding anything writes a zero-byte
file. -/
theorem truncate_discards_content (flags : Flags) (s : List Char)
    (path : List (Name × Nat)) (key : Name)
    (hT : flags.truncate = true) (hRO : flags.readOnly = false) :
    (parseChars flags false s).keyCountAt path key = 0 ∧
    (parseChars flags false s).save = some [] := by
  have hp : parseChars flags false s =
      ⟨flags, false, true, false, true, emptyGroup [], false, false⟩ := by
    rw [parseChars, if_pos (by rw [hT])]
  rw [hp]
  constructor
  · cases path with
    | nil => rfl
    | cons p ps => rfl
  · rw [Configuration.save]
    have hcond : ((⟨flags, false, true, false, true, emptyGroup [], false,
        false⟩ : Configuration).valid &&
        !(⟨flags, false, true, false, true, emptyGroup [], false,
        false⟩ : Configuration).effectiveReadOnly) = true := by
      simp [Configuration.effectiveReadOnly, hRO]
    rw [if_pos hcond]
    rfl

/-- C9, witness: the truncate theorem applied to the truncate flag set
and a concrete file with content. -/
theorem truncate_discards_content_witness :
    (parseChars ⟨false, true, false, false, false, false, false⟩ false
      ("key=value\n").data).keyCountAt [] ("key").data = 0 ∧
    (parseChars ⟨false, true, false, false, false, false, false⟩ false
      ("key=value\n").data).save = some [] :=
  truncate_discards_content ⟨false, true, false, false, false, false, false⟩
    ("key=value\n").data [] ("key").data rfl rfl

/-! Helper lemmas: every group mutator fails when the context forbids
writing, and a failing mutator leaves the configuration unchanged. -/

theorem addGroupG_fail (ctx : Ctx) (g : ConfGroup) (n : Name)
    (hcw : ctx.canWrite = false) : addGroupG ctx g n = (false, g) := by
  simp [addGroupG, hcw]

theorem removeGroupG_fail (ctx : Ctx) (g : ConfGroup) (n : Name) (idx : Nat)
    (hcw : ctx.canWrite = false) : removeGroupG ctx g n idx = (false, g) := by
  simp [removeGroupG, hcw]

theorem removeAllGroupsG_fail (ctx : Ctx) (g : ConfGroup) (n : Name)
    (hcw : ctx.canWrite = false) : removeAllGroupsG ctx g n = (false, g) := by
  simp [removeAllGroupsG, hcw]

theorem clearG_fail (ctx : Ctx) (g : ConfGroup)
    (hcw : ctx.canWrite = false) : clearG ctx g = (false, g) := by
  simp [clearG, hcw]

theorem addValueG_fail (ctx : Ctx) (g : ConfGroup) (key : Name) (v : List Char)
    (hcw : ctx.canWrite = false) : addValueG ctx g key v = (false, g) := by
  simp [addValueG, hcw]

theorem setValueG_fail (ctx : Ctx) (g : ConfGroup) (key : Name) (v : List Char) (idx : Nat)
    (hcw : ctx.canWrite = false) : setValueG ctx g key v idx = (false, g) := by
  simp [setValueG, hcw]

theorem removeValueG_fail (ctx : Ctx) (g : ConfGroup) (key : Name) (idx : Nat)
    (hcw : ctx.canWrite = false) : removeValueG ctx g key idx = (false, g) := by
  simp [removeValueG, hcw]

theorem removeAllValuesG_fail (ctx : Ctx) (g : ConfGroup) (key : Name)
    (hcw : ctx.canWrite = false) : removeAllValuesG ctx g key = (false, g) := by
  simp [removeAllValuesG, hcw]

theorem applyAtPath_fail (c : Configuration) (path : List (Name × Nat))
    (f : Ctx → ConfGroup → Bool × ConfGroup)
    (hf : ∀ g, (f c.ctx g).1 = false) : applyAtPath c path f = (false, c) := by
  rw [applyAtPath]
  split
  · rfl
  · next pos =>
    split
    · rfl
    · next g hg =>
      simp [hf g]

/-- C2: a configuration opened on an unreadable file is invalid, every
mutator at every path fails and leaves the configuration unchanged, save
fails, and every query returns an empty result. -/
theorem invalid_configuration_disabled (flags : Flags) (path : List (Name × Nat))
    (n key : Name) (v : List Char) (idx : Nat) :
    (Configuration.fromFile flags none).isValid = false ∧
    (Configuration.fromFile flags none).addGroupAt path n =
      (false, Configuration.fromFile flags none) ∧
    (Configuration.fromFile flags none).removeGroupAt path n idx =
      (false, Configuration.fromFile flags none) ∧
    (Configuration.fromFile flags none).removeAllGroupsAt path n =
      (false, Configuration.fromFile flags none) ∧
    (Configuration.fromFile flags none).addValueAt path key v =
      (false, Configuration.fromFile flags none) ∧
    (Configuration.fromFile flags none).setValueAt path key v idx =
      (false, Configuration.fromFile flags none) ∧
    (Configuration.fromFile flags none).removeValueAt path key idx =
      (false, Configuration.fromFile flags none) ∧
    (Configuration.fromFile flags none).removeAllValuesAt path key =
      (false, Configuration.fromFile flags none) ∧
    (Configuration.fromFile flags none).clearAt path =
      (false, Configuration.fromFile flags none) ∧
    (Configuration.fromFile flags none).save = none ∧
    (Configuration.fromFile flags none).groupCount n = 0 ∧
    (Configuration.fromFile flags none).valueAt path key idx = none ∧
    (Configuration.fromFile flags none).valuesAt path key = [] ∧
    (Configuration.fromFile flags none).keyCountAt path key = 0 := by
  have hcw : (Configuration.fromFile flags none).ctx.canWrite = false := rfl
  refine ⟨rfl,
    applyAtPath_fail _ path _ (fun g => by rw [addGroupG_fail _ _ _ hcw]),
    applyAtPath_fail _ path _ (fun g => by rw [removeGroupG_fail _ _ _ _ hcw]),
    applyAtPath_fail _ path _ (fun g => by rw [removeAllGroupsG_fail _ _ _ hcw]),
    applyAtPath_fail _ path _ (fun g => by rw [addValueG_fail _ _ _ _ hcw]),
    applyAtPath_fail _ path _ (fun g => by rw [setValueG_fail _ _ _ _ _ hcw]),
    applyAtPath_fail _ path _ (fun g => by rw [removeValueG_fail _ _ _ _ hcw]),
    applyAtPath_fail _ path _ (fun g => by rw [removeAllValuesG_fail _ _ _ hcw]),
    applyAtPath_fail _ path _ (fun g => by rw [clearG_fail _ _ hcw]),
    rfl, rfl, ?_, ?_, ?_⟩
  · cases path with
    | nil => rfl
    | cons p ps => rfl
  · cases path with
    | nil => rfl
    | cons p ps => rfl
  · cases path with
    | nil => rfl
    | cons p ps => rfl

/-- C3, counterexample: a configuration constructed from the in-memory
text source consisting of one unparseable line is not valid, refuting the
claim that every configuration constructed from an in-memory source is
valid. -/
theorem fromStream_invalid_counterexample :
    (Configuration.fromStream ("nonsense\n").data).isValid = false := by
  decide

/-- C3 (amended): every configuration constructed from an in-memory text
source is permanently read-only: every mutator fails leaving it unchanged
and save fails; and when the source parses without error, as with the
concrete source of scenario S6, the configuration is additionally valid
and queries over the parsed content succeed. -/
theorem fromStream_readonly (s : List Char) (path : List (Name × Nat))
    (n key : Name) (v : List Char) (idx : Nat) :
    (Configuration.fromStream s).effectiveReadOnly = true ∧
    (Configuration.fromStream s).addGroupAt path n =
      (false, Configuration.fromStream s) ∧
    (Configuration.fromStream s).removeGroupAt path n idx =
      (false, Configuration.fromStream s) ∧
    (Configuration.fromStream s).removeAllGroupsAt path n =
      (false, Configuration.fromStream s) ∧
    (Configuration.fromStream s).addValueAt path key v =
      (false, Configuration.fromStream s) ∧
    (Configuration.fromStream s).setValueAt path key v idx =
      (false, Configuration.fromStream s) ∧
    (Configuration.fromStream s).removeValueAt path key idx =
      (false, Configuration.fromStream s) ∧
    (Configuration.fromStream s).removeAllValuesAt path key =
      (false, Configuration.fromStream s) ∧
    (Configuration.fromStream s).clearAt path = (false, Configuration.fromStream s) ∧
    (Configuration.fromStream s).save = none ∧
    (Configuration.fromStream ("[group]\nkey=value").data).isValid = true ∧
    (Configuration.fromStream ("[group]\nkey=value").data).valueAt
      [(("group").data, 0)] ("key").data 0 = some ("value").data ∧
    (Configuration.fromStream ("[group]\nkey=value").data).addValueAt []
      ("key2").data ("value2").data =
      (false, Configuration.fromStream ("[group]\nkey=value").data) ∧
    (Configuration.fromStream ("[group]\nkey=value").data).save = none := by
  have hro : (Configuration.fromStream s).effectiveReadOnly = true := rfl
  have hcw : (Configuration.fromStream s).ctx.canWrite = false := by
    simp [Configuration.ctx, Ctx.canWrite, hro]
  refine ⟨hro,
    applyAtPath_fail _ path _ (fun g => by rw [addGroupG_fail _ _ _ hcw]),
    applyAtPath_fail _ path _ (fun g => by rw [removeGroupG_fail _ _ _ _ hcw]),
    applyAtPath_fail _ path _ (fun g => by rw [removeAllGroupsG_fail _ _ _ hcw]),
    applyAtPath_fail _ path _ (fun g => by rw [addValueG_fail _ _ _ _ hcw]),
    applyAtPath_fail _ path _ (fun g => by rw [setValueG_fail _ _ _ _ _ hcw]),
    applyAtPath_fail _ path _ (fun g => by rw [removeValueG_fail _ _ _ _ hcw]),
    applyAtPath_fail _ path _ (fun g => by rw [removeAllValuesG_fail _ _ _ hcw]),
    applyAtPath_fail _ path _ (fun g => by rw [clearG_fail _ _ hcw]),
    ?_, by decide, by decide, rfl, by decide⟩
  simp [Configuration.save, hro]

/-- C4: a static plugin record always reports the static state: any
sequence of load and unload calls against it returns the static state
each time and leaves the whole manager, the record included, unchanged. -/
theorem static_plugin_idempotent (env : PMEnv) (m : PluginManager) (name : String)
    (r : PluginRecord) (ops : List Bool)
    (hfind : findRecord m name = some r) (hstatic : r.loadState = .isStatic) :
    (PluginManager.runSeq env m name ops).2 = m ∧
    ∀ st ∈ (PluginManager.runSeq env m name ops).1, st = LoadState.isStatic := by
  have hload : m.load env name = (.isStatic, m) := by
    rw [PluginManager.load, loadGo, hfind]
    simp [hstatic]
  have hunload : m.unload env name = (.isStatic, m) := by
    rw [PluginManager.unload, hfind]
    simp [hstatic]
  induction ops with
  | nil => exact ⟨rfl, by simp [PluginManager.runSeq]⟩
  | cons op rest ih =>
    have hstep : (if op then m.load env name else m.unload env name) = (.isStatic, m) := by
      cases op with
      | true => simpa using hload
      | false => simpa using hunload
    rw [PluginManager.runSeq, hstep]
    refine ⟨ih.1, ?_⟩
    intro st hst
    simp only [List.mem_cons] at hst
    rcases hst with h1 | h2
    · exact h1
    · exact ih.2 st h2

/-! Success conditions of the mutators. -/

theorem addGroupG_ok_iff (ctx : Ctx) (g : ConfGroup) (n : Name) :
    (addGroupG ctx g n).1 = true ↔
      (ctx.valid = true ∧ ctx.readOnly = false ∧ hasSlash n = false ∧
        ¬(ctx.uniqueGroups = true ∧ groupExistsG g n = true)) := by
  obtain ⟨cv, cr, cg, ck⟩ := ctx
  cases cv <;> cases cr <;> cases cg <;>
    cases hs : hasSlash n <;> cases he : groupExistsG g n <;>
    simp [addGroupG, Ctx.canWrite, hs, he]

theorem removeGroupG_ok_iff (ctx : Ctx) (g : ConfGroup) (n : Name) (idx : Nat) :
    (removeGroupG ctx g n idx).1 = true ↔
      (ctx.valid = true ∧ ctx.readOnly = false ∧ idx < groupCountG g n) := by
  obtain ⟨cv, cr, cg, ck⟩ := ctx
  by_cases hi : idx < groupCountG g n <;> cases cv <;> cases cr <;>
    simp [removeGroupG, Ctx.canWrite, hi]

theorem removeAllGroupsG_ok_iff (ctx : Ctx) (g : ConfGroup) (n : Name) :
    (removeAllGroupsG ctx g n).1 = true ↔
      (ctx.valid = true ∧ ctx.readOnly = false) := by
  obtain ⟨cv, cr, cg, ck⟩ := ctx
  cases cv <;> cases cr <;> simp [removeAllGroupsG, Ctx.canWrite]

theorem clearG_ok_iff (ctx : Ctx) (g : ConfGroup) :
    (clearG ctx g).1 = true ↔ (ctx.valid = true ∧ ctx.readOnly = false) := by
  obtain ⟨cv, cr, cg, ck⟩ := ctx
  cases cv <;> cases cr <;> simp [clearG, Ctx.canWrite]

theorem addValueG_ok_iff (ctx : Ctx) (g : ConfGroup) (key : Name) (v : List Char) :
    (addValueG ctx g key v).1 = true ↔
      (ctx.valid = true ∧ ctx.readOnly = false ∧ hasSlash key = false ∧
        ¬(ctx.uniqueKeys = true ∧ keyExistsG g key = true)) := by
  obtain ⟨cv, cr, cg, ck⟩ := ctx
  cases cv <;> cases cr <;> cases ck <;>
    cases hs : hasSlash key <;> cases he : keyExistsG g key <;>
    simp [addValueG, Ctx.canWrite, hs, he]

theorem setValueG_ok_iff (ctx : Ctx) (g : ConfGroup) (key : Name) (v : List Char)
    (idx : Nat) :
    (setValueG ctx g key v idx).1 = true ↔
      (ctx.valid = true ∧ ctx.readOnly = false ∧ hasSlash key = false ∧
        idx ≤ keyCountG g key) := by
  obtain ⟨cv, cr, cg, ck⟩ := ctx
  by_cases hi : idx ≤ keyCountG g key <;> by_cases hie : idx = keyCountG g key <;>
    cases cv <;> cases cr <;> cases hs : hasSlash key <;>
    simp [setValueG, Ctx.canWrite, hi, hie, hs]

theorem removeValueG_ok_iff (ctx : Ctx) (g : ConfGroup) (key : Name) (idx : Nat) :
    (removeValueG ctx g key idx).1 = true ↔
      (ctx.valid = true ∧ ctx.readOnly = false ∧ idx < keyCountG g key) := by
  obtain ⟨cv, cr, cg, ck⟩ := ctx
  by_cases hi : idx < keyCountG g key <;> cases cv <;> cases cr <;>
    simp [removeValueG, Ctx.canWrite, hi]

theorem removeAllValuesG_ok_iff (ctx : Ctx) (g : ConfGroup) (key : Name) :
    (removeAllValuesG ctx g key).1 = true ↔
      (ctx.valid = true ∧ ctx.readOnly = false) := by
  obtain ⟨cv, cr, cg, ck⟩ := ctx
  cases cv <;> cases cr <;> simp [removeAllValuesG, Ctx.canWrite]

theorem ite_pair_unchanged {c : Prop} [inst : Decidable c] (x : Bool × ConfGroup)
    (g : ConfGroup) (hx : x.1 = true)
    (h : (if c then x else (false, g)).1 = false) :
    (if c then x else (false, g)).2 = g := by
  split
  · next hc =>
    rw [if_pos hc, hx] at h
    simp at h
  · rfl

theorem addGroupG_unchanged (ctx : Ctx) (g : ConfGroup) (n : Name)
    (h : (addGroupG ctx g n).1 = false) : (addGroupG ctx g n).2 = g := by
  rw [addGroupG] at h ⊢
  exact ite_pair_unchanged _ g rfl h

theorem removeGroupG_unchanged (ctx : Ctx) (g : ConfGroup) (n : Name) (idx : Nat)
    (h : (removeGroupG ctx g n idx).1 = false) : (removeGroupG ctx g n idx).2 = g := by
  rw [removeGroupG] at h ⊢
  exact ite_pair_unchanged _ g rfl h

theorem removeAllGroupsG_unchanged (ctx : Ctx) (g : ConfGroup) (n : Name)
    (h : (removeAllGroupsG ctx g n).1 = false) : (removeAllGroupsG ctx g n).2 = g := by
  rw [removeAllGroupsG] at h ⊢
  exact ite_pair_unchanged _ g rfl h

theorem clearG_unchanged (ctx : Ctx) (g : ConfGroup)
    (h : (clearG ctx g).1 = false) : (clearG ctx g).2 = g := by
  rw [clearG] at h ⊢
  exact ite_pair_unchanged _ g rfl h

theorem addValueG_unchanged (ctx : Ctx) (g : ConfGroup) (key : Name) (v : List Char)
    (h : (addValueG ctx g key v).1 = false) : (addValueG ctx g key v).2 = g := by
  rw [addValueG] at h ⊢
  exact ite_pair_unchanged _ g rfl h

theorem setValueG_unchanged (ctx : Ctx) (g : ConfGroup) (key : Name) (v : List Char)
    (idx : Nat) (h : (setValueG ctx g key v idx).1 = false) :
    (setValueG ctx g key v idx).2 = g := by
  rw [setValueG] at h ⊢
  exact ite_pair_unchanged _ g (by split <;> rfl) h

theorem removeValueG_unchanged (ctx : Ctx) (g : ConfGroup) (key : Name) (idx : Nat)
    (h : (removeValueG ctx g key idx).1 = false) : (removeValueG ctx g key idx).2 = g := by
  rw [removeValueG] at h ⊢
  exact ite_pair_unchanged _ g rfl h

theorem removeAllValuesG_unchanged (ctx : Ctx) (g : ConfGroup) (key : Name)
    (h : (removeAllValuesG ctx g key).1 = false) : (removeAllValuesG ctx g key).2 = g := by
  rw [removeAllValuesG] at h ⊢
  exact ite_pair_unchanged _ g rfl h

/-- C6: every mutator returns a success indicator and fails exactly when
the configuration is invalid, the configuration is read-only, a
uniqueness constraint would be violated, a proposed group or key name
contains the separator, or an index is out of range; and on any failure
the group is unchanged. -/
theorem mutator_failure_semantics (ctx : Ctx) (g : ConfGroup) (n key : Name)
    (v : List Char) (idx : Nat) :
    ((addGroupG ctx g n).1 = true ↔
      (ctx.valid = true ∧ ctx.readOnly = false ∧ hasSlash n = false ∧
        ¬(ctx.uniqueGroups = true ∧ groupExistsG g n = true))) ∧
    ((removeGroupG ctx g n idx).1 = true ↔
      (ctx.valid = true ∧ ctx.readOnly = false ∧ idx < groupCountG g n)) ∧
    ((removeAllGroupsG ctx g n).1 = true ↔
      (ctx.valid = true ∧ ctx.readOnly = false)) ∧
    ((clearG ctx g).1 = true ↔ (ctx.valid = true ∧ ctx.readOnly = false)) ∧
    ((addValueG ctx g key v).1 = true ↔
      (ctx.valid = true ∧ ctx.readOnly = false ∧ hasSlash key = false ∧
        ¬(ctx.uniqueKeys = true ∧ keyExistsG g key = true))) ∧
    ((setValueG ctx g key v idx).1 = true ↔
      (ctx.valid = true ∧ ctx.readOnly = false ∧ hasSlash key = false ∧
        idx ≤ keyCountG g key)) ∧
    ((removeValueG ctx g key idx).1 = true ↔
      (ctx.valid = true ∧ ctx.readOnly = false ∧ idx < keyCountG g key)) ∧
    ((removeAllValuesG ctx g key).1 = true ↔
      (ctx.valid = true ∧ ctx.readOnly = false)) ∧
    ((addGroupG ctx g n).1 = false → (addGroupG ctx g n).2 = g) ∧
    ((removeGroupG ctx g n idx).1 = false → (removeGroupG ctx g n idx).2 = g) ∧
    ((removeAllGroupsG ctx g n).1 = false → (removeAllGroupsG ctx g n).2 = g) ∧
    ((clearG ctx g).1 = false → (clearG ctx g).2 = g) ∧
    ((addValueG ctx g key v).1 = false → (addValueG ctx g key v).2 = g) ∧
    ((setValueG ctx g key v idx).1 = false → (setValueG ctx g key v idx).2 = g) ∧
    ((removeValueG ctx g key idx).1 = false → (removeValueG ctx g key idx).2 = g) ∧
    ((removeAllValuesG ctx g key).1 = false → (removeAllValuesG ctx g key).2 = g) :=
  ⟨addGroupG_ok_iff ctx g n, removeGroupG_ok_iff ctx g n idx,
    removeAllGroupsG_ok_iff ctx g n, clearG_ok_iff ctx g,
    addValueG_ok_iff ctx g key v, setValueG_ok_iff ctx g key v idx,
    removeValueG_ok_iff ctx g key idx, removeAllValuesG_ok_iff ctx g key,
    addGroupG_unchanged ctx g n, removeGroupG_unchanged ctx g n idx,
    removeAllGroupsG_unchanged ctx g n, clearG_unchanged ctx g,
    addValueG_unchanged ctx g key v, setValueG_unchanged ctx g key v idx,
    removeValueG_unchanged ctx g key idx, removeAllValuesG_unchanged ctx g key⟩

/-- C6, witness: the mutator failure semantics applied to a writable
context, the empty group and concrete names. -/
theorem mutator_failure_semantics_witness :
    ((addGroupG ⟨true, false, false, false⟩ (ConfGroup.mk [] [] []) ("n").data).1 = true ↔
      ((⟨true, false, false, false⟩ : Ctx).valid = true ∧
        (⟨true, false, false, false⟩ : Ctx).readOnly = false ∧
        hasSlash ("n").data = false ∧
        ¬((⟨true, false, false, false⟩ : Ctx).uniqueGroups = true ∧
          groupExistsG (ConfGroup.mk [] [] []) ("n").data = true))) ∧
    ((removeGroupG ⟨true, false, false, false⟩ (ConfGroup.mk [] [] []) ("n").data 0).1 =
        true ↔
      ((⟨true, false, false, false⟩ : Ctx).valid = true ∧
        (⟨true, false, false, false⟩ : Ctx).readOnly = false ∧
        0 < groupCountG (ConfGroup.mk [] [] []) ("n").data)) ∧
    ((removeAllGroupsG ⟨true, false, false, false⟩ (ConfGroup.mk [] [] []) ("n").data).1 =
        true ↔
      ((⟨true, false, false, false⟩ : Ctx).valid = true ∧
        (⟨true, false, false, false⟩ : Ctx).readOnly = false)) ∧
    ((clearG ⟨true, false, false, false⟩ (ConfGroup.mk [] [] [])).1 = true ↔
      ((⟨true, false, false, false⟩ : Ctx).valid = true ∧
        (⟨true, false, false, false⟩ : Ctx).readOnly = false)) ∧
    ((addValueG ⟨true, false, false, false⟩ (ConfGroup.mk [] [] []) ("k").data
        ("v").data).1 = true ↔
      ((⟨true, false, false, false⟩ : Ctx).valid = true ∧
        (⟨true, false, false, false⟩ : Ctx).readOnly = false ∧
        hasSlash ("k").data = false ∧
        ¬((⟨true, false, false, false⟩ : Ctx).uniqueKeys = true ∧
          keyExistsG (ConfGroup.mk [] [] []) ("k").data = true))) ∧
    ((setValueG ⟨true, false, false, false⟩ (ConfGroup.mk [] [] []) ("k").data
        ("v").data 0).1 = true ↔
      ((⟨true, false, false, false⟩ : Ctx).valid = true ∧
        (⟨true, false, false, false⟩ : Ctx).readOnly = false ∧
        hasSlash ("k").data = false ∧
        0 ≤ keyCountG (ConfGroup.mk [] [] []) ("k").data)) ∧
    ((removeValueG ⟨true, false, false, false⟩ (ConfGroup.mk [] [] []) ("k").data 0).1 =
        true ↔
      ((⟨true, false, false, false⟩ : Ctx).valid = true ∧
        (⟨true, false, false, false⟩ : Ctx).readOnly = false ∧
        0 < keyCountG (ConfGroup.mk [] [] []) ("k").data)) ∧
    ((removeAllValuesG ⟨true, false, false, false⟩ (ConfGroup.mk [] [] []) ("k").data).1 =
        true ↔
      ((⟨true, false, false, false⟩ : Ctx).valid = true ∧
        (⟨true, false, false, false⟩ : Ctx).readOnly = false)) ∧
    ((addGroupG ⟨true, false, false, false⟩ (ConfGroup.mk [] [] []) ("n").data).1 = false →
      (addGroupG ⟨true, false, false, false⟩ (ConfGroup.mk [] [] []) ("n").data).2 =
        ConfGroup.mk [] [] []) ∧
    ((removeGroupG ⟨true, false, false, false⟩ (ConfGroup.mk [] [] []) ("n").data 0).1 =
        false →
      (removeGroupG ⟨true, false, false, false⟩ (ConfGroup.mk [] [] []) ("n").data 0).2 =
        ConfGroup.mk [] [] []) ∧
    ((removeAllGroupsG ⟨true, false, false, false⟩ (ConfGroup.mk [] [] []) ("n").data).1 =
        false →
      (removeAllGroupsG ⟨true, false, false, false⟩ (ConfGroup.mk [] [] [])
        ("n").data).2 = ConfGroup.mk [] [] []) ∧
    ((clearG ⟨true, false, false, false⟩ (ConfGroup.mk [] [] [])).1 = false →
      (clearG ⟨true, false, false, false⟩ (ConfGroup.mk [] [] [])).2 =
        ConfGroup.mk [] [] []) ∧
    ((addValueG ⟨true, false, false, false⟩ (ConfGroup.mk [] [] []) ("k").data
        ("v").data).1 = false →
      (addValueG ⟨true, false, false, false⟩ (ConfGroup.mk [] [] []) ("k").data
        ("v").data).2 = ConfGroup.mk [] [] []) ∧
    ((setValueG ⟨true, false, false, false⟩ (ConfGroup.mk [] [] []) ("k").data
        ("v").data 0).1 = false →
      (setValueG ⟨true, false, false, false⟩ (ConfGroup.mk [] [] []) ("k").data
        ("v").data 0).2 = ConfGroup.mk [] [] []) ∧
    ((removeValueG ⟨true, false, false, false⟩ (ConfGroup.mk [] [] []) ("k").data 0).1 =
        false →
      (removeValueG ⟨true, false, false, false⟩ (ConfGroup.mk [] [] []) ("k").data 0).2 =
        ConfGroup.mk [] [] []) ∧
    ((removeAllValuesG ⟨true, false, false, false⟩ (ConfGroup.mk [] [] []) ("k").data).1 =
        false →
      (removeAllValuesG ⟨true, false, false, false⟩ (ConfGroup.mk [] [] [])
        ("k").data).2 = ConfGroup.mk [] [] []) :=
  mutator_failure_semantics ⟨true, false, false, false⟩ (ConfGroup.mk [] [] [])
    ("n").data ("k").data ("v").data 0

/-- C7: boolean value conversion: a typed boolean read of a stored text
that lowercases to true, yes, on or 1 returns true; one that lowercases
to false, no, off, 0 or the empty text returns false; and a typed boolean
write stores the text true or false. -/
theorem boolean_value_conversion (v w : List Char) (b : Bool)
    (hv : lowerChars v = ("true").data ∨ lowerChars v = ("yes").data ∨
      lowerChars v = ("on").data ∨ lowerChars v = ("1").data)
    (hw : lowerChars w = ("false").data ∨ lowerChars w = ("no").data ∨
      lowerChars w = ("off").data ∨ lowerChars w = ("0").data ∨ lowerChars w = []) :
    valueBoolG (ConfGroup.mk [] [ConfItem.kv ⟨("bool").data, [], [], v⟩] [])
      ("bool").data 0 = some true ∧
    valueBoolG (ConfGroup.mk [] [ConfItem.kv ⟨("bool").data, [], [], w⟩] [])
      ("bool").data 0 = some false ∧
    boolToChars true = ("true").data ∧ boolToChars false = ("false").data ∧
    (setValueBoolG ⟨true, false, false, false⟩ (ConfGroup.mk [] [] [])
      ("key").data b 0).2 =
      ConfGroup.mk [] [ConfItem.kv ⟨("key").data, [], [], boolToChars b⟩] [] := by
  refine ⟨?_, ?_, rfl, rfl, ?_⟩
  · show some (boolFromLower (lowerChars v)) = some true
    rcases hv with h | h | h | h <;> rw [h] <;> rfl
  · show some (boolFromLower (lowerChars w)) = some false
    rcases hw with h | h | h | h | h <;> rw [h] <;> rfl
  · cases b <;> rfl

/-- C7, witness: the boolean conversion theorem applied to the mixed-case
stored texts TRUE and Off. -/
theorem boolean_value_conversion_witness :
    (lowerChars ("TRUE").data = ("true").data ∨ lowerChars ("TRUE").data = ("yes").data ∨
      lowerChars ("TRUE").data = ("on").data ∨ lowerChars ("TRUE").data = ("1").data) ∧
    (lowerChars ("Off").data = ("false").data ∨ lowerChars ("Off").data = ("no").data ∨
      lowerChars ("Off").data = ("off").data ∨ lowerChars ("Off").data = ("0").data ∨
      lowerChars ("Off").data = []) ∧
    (valueBoolG (ConfGroup.mk [] [ConfItem.kv ⟨("bool").data, [], [], ("TRUE").data⟩] [])
      ("bool").data 0 = some true ∧
    valueBoolG (ConfGroup.mk [] [ConfItem.kv ⟨("bool").data, [], [], ("Off").data⟩] [])
      ("bool").data 0 = some false ∧
    boolToChars true = ("true").data ∧ boolToChars false = ("false").data ∧
    (setValueBoolG ⟨true, false, false, false⟩ (ConfGroup.mk [] [] [])
      ("key").data true 0).2 =
      ConfGroup.mk [] [ConfItem.kv ⟨("key").data, [], [], boolToChars true⟩] []) :=
  ⟨by decide, by decide,
    boolean_value_conversion ("TRUE").data ("Off").data true (by decide) (by decide)⟩

/-! String serialization round trip, used by the automatic-creation
claim. -/

theorem unescape_escape (s : List Char) : unescapeChars (escapeChars s) = s := by
  induction s with
  | nil => rfl
  | cons c rest ih =>
    rw [escapeChars]
    by_cases hc : (c = '"' || c = '\\') = true
    · rw [if_pos hc]
      have hstep : unescapeChars ('\\' :: (c :: escapeChars rest)) =
          c :: unescapeChars (escapeChars rest) := by
        rw [unescapeChars.eq_def]
        simp
      rw [hstep, ih]
    · rw [if_neg hc]
      have hc2 : ¬ c = '\\' := by
        intro he
        apply hc
        rw [he]
        simp
      rw [unescapeChars.eq_def]
      simp only [if_neg hc2]
      rw [ih]

theorem deserializeStr_serializeStr (s : List Char) :
    deserializeStr (serializeStr s) = s := by
  rw [serializeStr]
  split
  · next hq =>
    rw [deserializeStr]
    have hl : ('"' :: (escapeChars s ++ ['"'])).getLast? = some '"' :=
      getLast?_concat_cons _ _ _
    have hlen : 2 ≤ ('"' :: (escapeChars s ++ ['"'])).length := by
      simp only [List.length_cons, List.length_append, List.length_singleton]
      omega
    rw [if_pos (by simp [hl, hlen])]
    rw [show (('"' :: (escapeChars s ++ ['"'])).drop 1).dropLast = escapeChars s from by
      simp [List.dropLast_concat]]
    exact unescape_escape s
  · next hq =>
    have hq2 : needsQuote s = false := by
      cases hn : needsQuote s with
      | false => rfl
      | true => exact absurd hn hq
    rw [deserializeStr]
    have hcond : ¬ (s.head? = some '"' && s.getLast? = some '"' &&
        decide (2 ≤ s.length)) = true := by
      intro hcontra
      simp only [Bool.and_eq_true, decide_eq_true_eq] at hcontra
      have hmem : '"' ∈ s := by
        cases s with
        | nil => simp at hcontra
        | cons c cs =>
          have hch : c = '"' := by
            have := hcontra.1.1
            simp only [List.head?_cons, Option.some.injEq] at this
            exact this
          simp [hch]
      have hcont : s.contains '"' = true := List.elem_iff.mpr hmem
      rw [needsQuote, hcont] at hq2
      simp at hq2
    rw [if_neg hcond]

theorem kvValues_append_kv (g : ConfGroup) (key : Name) (v : List Char) :
    kvValues (appendItem g (ConfItem.kv ⟨key, [], [], v⟩)) key = kvValues g key ++ [v] := by
  simp [kvValues, appendItem]

theorem groupExistsG_appendChild (g : ConfGroup) (n : Name) :
    groupExistsG (appendChild g (emptyGroup n)) n = true := by
  simp only [groupExistsG, groupCountG, appendChild, ConfGroup.children_mk,
    List.filter_append]
  simp [emptyGroup]

/-- C8: automatic creation: with automatic group creation enabled a group
query for a missing group materializes and returns that group, and with
it disabled the query returns nothing; with automatic key creation
enabled a typed read of a missing key succeeds, writes the serialized
caller-supplied default back into the store so that the key count becomes
one and a subsequent read returns that default, and leaves the returned
value equal to the default; with it disabled the read fails. -/
theorem automatic_creation {α : Type} (c : Configuration) (n : Name) (g : ConfGroup)
    (key : Name) (toS : α → List Char) (fromS : List Char → α) (d d2 : α) (a : Bool)
    (hv : c.valid = true) (hro : c.effectiveReadOnly = false)
    (hmiss : findGroupG c.root n 0 = none)
    (hk : keyCountG g key = 0) (hrt : fromS (toS d) = d) :
    ((c.setAutomaticGroupCreation true).groupAuto n).1 = some (emptyGroup n) ∧
    groupExistsG ((c.setAutomaticGroupCreation true).groupAuto n).2.root n = true ∧
    ((c.setAutomaticGroupCreation false).groupAuto n).1 = none ∧
    (valueAutoT toS fromS true g key d).1 = true ∧
    (valueAutoT toS fromS true g key d).2.1 = d ∧
    keyCountG (valueAutoT toS fromS true g key d).2.2 key = 1 ∧
    valueAutoT toS fromS a (valueAutoT toS fromS true g key d).2.2 key d2 =
      (true, d, (valueAutoT toS fromS true g key d).2.2) ∧
    valueAutoT toS fromS false g key d = (false, d, g) := by
  have hcw : (c.setAutomaticGroupCreation true).ctx.canWrite = true := by
    simp [Configuration.setAutomaticGroupCreation, Configuration.ctx, Ctx.canWrite,
      Configuration.effectiveReadOnly] at *
    simp [hv, hro.1, hro.2]
  have hmiss1 : findGroupG (c.setAutomaticGroupCreation true).root n 0 = none := hmiss
  have hmiss0 : findGroupG (c.setAutomaticGroupCreation false).root n 0 = none := hmiss
  have hcond : ((c.setAutomaticGroupCreation true).autoGroups &&
      (c.setAutomaticGroupCreation true).ctx.canWrite) = true := by
    rw [hcw]
    rfl
  have hga1 : ((c.setAutomaticGroupCreation true).groupAuto n).1 = some (emptyGroup n) := by
    rw [Configuration.groupAuto, hmiss1, if_pos hcond]
  have hga2 : ((c.setAutomaticGroupCreation true).groupAuto n).2.root =
      appendChild c.root (emptyGroup n) := by
    rw [Configuration.groupAuto, hmiss1, if_pos hcond]
    rfl
  have hmv : findValueG g key 0 = none := by
    rw [findValueG]
    have : kvValues g key = [] := List.length_eq_zero.mp hk
    rw [this]
    rfl
  have hread : valueAutoT toS fromS true g key d =
      (true, d, appendItem g (ConfItem.kv ⟨key, [], [], toS d⟩)) := by
    rw [valueAutoT, hmv]
    rfl
  have hcount : keyCountG (appendItem g (ConfItem.kv ⟨key, [], [], toS d⟩)) key = 1 := by
    rw [keyCountG, kvValues_append_kv, List.length_eq_zero.mp hk]
    rfl
  have hfind2 : findValueG (appendItem g (ConfItem.kv ⟨key, [], [], toS d⟩)) key 0 =
      some (toS d) := by
    rw [findValueG, kvValues_append_kv, List.length_eq_zero.mp hk]
    rfl
  refine ⟨hga1, ?_, ?_, by rw [hread], by rw [hread], ?_, ?_, ?_⟩
  · rw [hga2]
    exact groupExistsG_appendChild c.root n
  · rw [Configuration.groupAuto, hmiss0]
    rfl
  · rw [hread, hcount]
  · rw [hread]
    simp [valueAutoT, hfind2, hrt]
  · rw [valueAutoT, hmv]
    rfl

/-- C8, witness: the automatic creation theorem applied to an empty
configuration, the string serializer pair and a concrete default. -/
theorem automatic_creation_witness :
    (((parseS Flags.default "").setAutomaticGroupCreation true).groupAuto
      ("g").data).1 = some (emptyGroup ("g").data) ∧
    groupExistsG (((parseS Flags.default "").setAutomaticGroupCreation true).groupAuto
      ("g").data).2.root ("g").data = true ∧
    (((parseS Flags.default "").setAutomaticGroupCreation false).groupAuto
      ("g").data).1 = none ∧
    (valueAutoT serializeStr deserializeStr true (ConfGroup.mk [] [] [])
      ("k").data ("dv").data).1 = true ∧
    (valueAutoT serializeStr deserializeStr true (ConfGroup.mk [] [] [])
      ("k").data ("dv").data).2.1 = ("dv").data ∧
    keyCountG (valueAutoT serializeStr deserializeStr true (ConfGroup.mk [] [] [])
      ("k").data ("dv").data).2.2 ("k").data = 1 ∧
    valueAutoT serializeStr deserializeStr false
      (valueAutoT serializeStr deserializeStr true (ConfGroup.mk [] [] [])
        ("k").data ("dv").data).2.2 ("k").data ("e").data =
      (true, ("dv").data,
        (valueAutoT serializeStr deserializeStr true (ConfGroup.mk [] [] [])
          ("k").data ("dv").data).2.2) ∧
    valueAutoT serializeStr deserializeStr false (ConfGroup.mk [] [] [])
      ("k").data ("dv").data = (false, ("dv").data, ConfGroup.mk [] [] []) :=
  automatic_creation (parseS Flags.default "") ("g").data (ConfGroup.mk [] [] [])
    ("k").data serializeStr deserializeStr ("dv").data ("e").data false
    rfl rfl rfl rfl (by decide)

/-- C4, witness: the static idempotence theorem applied to a concrete
manager holding one static record and the call sequence load, unload,
load. -/
theorem static_plugin_idempotent_witness :
    (PluginManager.runSeq
      ⟨fun _ => true, fun _ => true, fun _ => 1, fun _ => "i", fun _ => true⟩
      ⟨[("p", ⟨LoadState.isStatic, [], [], 0, false⟩)], "i", 1⟩ "p"
      [true, false, true]).2 =
      ⟨[("p", ⟨LoadState.isStatic, [], [], 0, false⟩)], "i", 1⟩ ∧
    ∀ st ∈ (PluginManager.runSeq
      ⟨fun _ => true, fun _ => true, fun _ => 1, fun _ => "i", fun _ => true⟩
      ⟨[("p", ⟨LoadState.isStatic, [], [], 0, false⟩)], "i", 1⟩ "p"
      [true, false, true]).1, st = LoadState.isStatic :=
  static_plugin_idempotent _ _ "p" ⟨LoadState.isStatic, [], [], 0, false⟩
    [true, false, true] rfl rfl

end Corrade
